import Mathlib

/-!
Shallow embedding of the core of the `loro` OpLog (crates/loro-internal/src/oplog.rs)
and of the `loro-common` ContainerID/ContainerType codecs, used to check the
natural-language specification against the code.

Conventions:
- `PeerID` (Rust `u64`) is `Nat`, `Counter` (Rust `i32`) is `Int`, `Lamport`
  (Rust `u32`) is `Nat`, `Timestamp` (Rust `i64`) is `Int`.  The spec restricts
  valid counters to `0..i32::MAX`; no operation modelled here overflows on the
  inputs the claims quantify over, so the machine widths are left implicit.
- Rust `FxHashMap` values are modelled as association lists (`List (κ × ν)`);
  lookup takes the first matching key, and `entry(k).or_default()` updates the
  first occurrence in place or appends a fresh entry at the end.  Iteration
  order of a hash map is unspecified in Rust; the association-list order plays
  that role, which is exactly what claim C5 is about.
- Functions that can hit an `unwrap`/`assert_eq!` abort are modelled with an
  explicit `fatal` outcome (or `Option` result): `none`/`fatal` marks the
  aborting executions of the source.
- Debug-only assertions (`cfg!(debug_assertions)` blocks) are modelled with
  release semantics, i.e. skipped, as the spec itself labels them debug-only.
- The arena is not modelled: no claim observes interned payloads.  An op is
  represented by its counter and its atom length, the only attributes the
  OpLog logic reads (`content_len` sums atom lengths).
-/

namespace Loro

/-- PeerID = u64 (opaque identifier, only compared for equality). -/
abbrev PeerID := Nat

/-- Counter = i32. -/
abbrev Counter := Int

/-- Lamport = u32. -/
abbrev Lamport := Nat

/-- Timestamp = i64. -/
abbrev Timestamp := Int

/-- ID = (peer, counter), from loro-common. -/
structure ID where
  peer : Nat
  counter : Int
deriving DecidableEq, Repr

/-- Frontiers: a small ordered collection of IDs (maximal elements of the history). -/
abbrev Frontiers := List ID

/-- VersionVector: map PeerID to next-unused counter, as an association list. -/
abbrev VersionVector := List (Nat × Int)

/-- Modelled from the spec: `VersionVector::get` returns the entry for a peer
(`version.rs` is not part of the provided sources). First match in the list. -/
def VersionVector.getVV (vv : VersionVector) (p : Nat) : Option Int :=
  vv.lookup p

/-- Modelled from the spec: `includes_id(ID)` holds iff `counter < map[peer]`;
a peer absent from the map includes nothing. -/
def VersionVector.includesId (vv : VersionVector) (id : ID) : Bool :=
  match vv.getVV id.peer with
  | some c => decide (id.counter < c)
  | none => false

/-- Modelled from the spec: `extend_to_include_last_id(ID)` raises the peer's
entry to `counter + 1` (never lowering it); absent peers are appended. -/
def VersionVector.extendToIncludeLastId (vv : VersionVector) (id : ID) : VersionVector :=
  match vv with
  | [] => [(id.peer, id.counter + 1)]
  | (p, c) :: rest =>
    if p = id.peer then (p, max c (id.counter + 1)) :: rest
    else (p, c) :: VersionVector.extendToIncludeLastId rest id

/-- Modelled from the spec: pointwise maximum of two version vectors
(`vv.merge`); entries of `b` are folded into `a`. -/
def VersionVector.setMax (vv : VersionVector) (p : Nat) (c : Int) : VersionVector :=
  match vv with
  | [] => [(p, c)]
  | (q, d) :: rest =>
    if q = p then (q, max d c) :: rest
    else (q, d) :: VersionVector.setMax rest p c

/-- Modelled from the spec: merge = pointwise max. -/
def VersionVector.mergeVV (a b : VersionVector) : VersionVector :=
  b.foldl (fun acc pr => acc.setMax pr.1 pr.2) a

/-- Modelled from the spec: `Frontiers::retain_non_included(&deps)` removes the
frontier IDs that occur in `deps`. -/
def Frontiers.retainNonIncluded (f : Frontiers) (deps : Frontiers) : Frontiers :=
  f.filter (fun x => ! decide (x ∈ deps))

/-- Modelled from the spec: `Frontiers::filter_peer(p)` drops the IDs of peer `p`. -/
def Frontiers.filterPeer (f : Frontiers) (p : Nat) : Frontiers :=
  f.filter (fun x => ! decide (x.peer = p))

/-- Modelled from the spec: `Frontiers::push(id)` appends, deduplicating. -/
def Frontiers.pushID (f : Frontiers) (id : ID) : Frontiers :=
  if id ∈ f then f else f ++ [id]

/-- An interned op: only its counter and atom length are observable to the
OpLog logic (content payloads live in the arena, which no claim observes). -/
structure Op where
  counter : Int
  atomLen : Nat
deriving DecidableEq, Repr

/-- Change<Op> = { ops, id, deps, lamport, timestamp } (crate::change::Change). -/
structure Change where
  ops : List Op
  id : ID
  deps : Frontiers
  lamport : Nat
  timestamp : Int
deriving DecidableEq, Repr

/-- content_len = sum of op atom lengths. -/
def Change.contentLen (c : Change) : Nat :=
  (c.ops.map Op.atomLen).sum

/-- ctr_end = id.counter + content_len. -/
def Change.ctrEnd (c : Change) : Int :=
  c.id.counter + c.contentLen

/-- id_last = (peer, counter + content_len - 1). -/
def Change.idLast (c : Change) : ID :=
  ⟨c.id.peer, c.id.counter + c.contentLen - 1⟩

/-- lamport_end = lamport + content_len. -/
def Change.lamportEnd (c : Change) : Nat :=
  c.lamport + c.contentLen

/-- Modelled from the spec: two stored changes merge iff they have the same
peer and timestamp, contiguous counters and lamports, and the second depends
exactly on the first's last ID (change.rs is not part of the provided
sources; the timestamp window is treated as exact equality, as §9 advises). -/
def changeMergeable (a b : Change) : Bool :=
  decide (a.id.peer = b.id.peer) && decide (a.timestamp = b.timestamp) &&
  decide (a.ctrEnd = b.id.counter) && decide (a.lamportEnd = b.lamport) &&
  decide (b.deps = [a.idLast])

/-- Merging concatenates the op sequences (id/deps/lamport of the first kept). -/
def changeMerge (a b : Change) : Change :=
  { a with ops := a.ops ++ b.ops }

/-- RleVec<[Change; 0]>: run-length-encoded storage of one peer's changes. -/
structure RleVecC where
  vec : List Change
deriving DecidableEq, Repr

/-- atom_len: total length counted in atoms. -/
def RleVecC.atomLen (rv : RleVecC) : Nat :=
  (rv.vec.map Change.contentLen).sum

/-- push: try to merge with the last element, else append (spec §4.1). -/
def RleVecC.push (rv : RleVecC) (c : Change) : RleVecC :=
  match rv.vec.getLast? with
  | some lastC =>
    if changeMergeable lastC c then
      ⟨rv.vec.dropLast ++ [changeMerge lastC c]⟩
    else ⟨rv.vec ++ [c]⟩
  | none => ⟨[c]⟩

/-- Search result of `get_by_atom_index`. -/
structure SearchResult where
  mergedIndex : Nat
  offset : Int
  element : Change
deriving DecidableEq, Repr

/-- Walk of `get_by_atom_index`: `some` iff `n < atom_len_total` or
`n = atom_len_total` (the one-past-end sentinel returns the last element, spec
§4.1).  A negative index is outside the source's contract (usize). -/
def getAtomGo (idx : Nat) (acc : Int) (n : Int) : List Change → Option SearchResult
  | [] => none
  | c :: rest =>
    if n < acc + c.contentLen then some ⟨idx, n - acc, c⟩
    else
      match rest with
      | [] => if n = acc + c.contentLen then some ⟨idx, c.contentLen, c⟩ else none
      | _ :: _ => getAtomGo (idx + 1) (acc + c.contentLen) n rest

/-- get_by_atom_index (atom addressing, prefix-sum search). -/
def RleVecC.getByAtomIndex (rv : RleVecC) (n : Int) : Option SearchResult :=
  getAtomGo 0 0 n rv.vec

/-- AppDagNode = { peer, cnt, lamport, deps, vv, len }. -/
structure AppDagNode where
  peer : Nat
  cnt : Int
  lamport : Nat
  deps : Frontiers
  vv : VersionVector
  len : Nat
deriving DecidableEq, Repr

/-- Per-peer DAG node storage (RleVec<[AppDagNode; 1]>). -/
abbrev DagMap := List (Nat × List AppDagNode)

/-- Modelled from the spec: consecutive DAG nodes merge when the second's deps
form a self-chain continuing the first (spec §3); merging extends `len`. -/
def nodeMergeable (a b : AppDagNode) : Bool :=
  decide (a.peer = b.peer) && decide (b.cnt = a.cnt + a.len) &&
  decide (b.lamport = a.lamport + a.len) &&
  decide (b.deps = [ID.mk a.peer (a.cnt + a.len - 1)])

/-- push for the per-peer node vector: merge with the last node if possible. -/
def nodePush (nodes : List AppDagNode) (n : AppDagNode) : List AppDagNode :=
  match nodes.getLast? with
  | some lastN =>
    if nodeMergeable lastN n then
      nodes.dropLast ++ [{ lastN with len := lastN.len + n.len }]
    else nodes ++ [n]
  | none => [n]

/-- AppDag = { map, frontiers, vv }. -/
structure AppDag where
  map : DagMap
  frontiers : Frontiers
  vv : VersionVector
deriving DecidableEq, Repr

/-- Find the DAG node containing an ID (peer's vector, cnt ≤ counter < cnt+len). -/
def findNode (dm : DagMap) (id : ID) : Option AppDagNode :=
  (dm.lookup id.peer).bind
    (List.find? (fun n => decide (n.cnt ≤ id.counter) && decide (id.counter < n.cnt + n.len)))

/-- Modelled from the spec: `frontiers_to_im_vv(f)` computes the version vector
at the frontiers as the union over ancestors; each dep contributes the vv
stored just before its node plus the peer's own run up to the dep.  `none`
models the abort when a dep's node is missing from the DAG (dag.rs is not part
of the provided sources). -/
def frontiersToImVv (dm : DagMap) (f : Frontiers) : Option VersionVector :=
  f.foldl
    (fun acc d =>
      acc.bind fun vv =>
        (findNode dm d).map fun n => vv.mergeVV (n.vv.extendToIncludeLastId d))
    (some [])

/-- Modelled from the spec: the vv of the ancestor set of a candidate frontier
ID (used by `vv_to_frontiers` to drop dominated candidates). -/
def ancestorIncludes (dm : DagMap) (e d : ID) : Bool :=
  match findNode dm e with
  | some n => (n.vv.extendToIncludeLastId e).includesId d
  | none => false

/-- Modelled from the spec: `vv_to_frontiers(vv)` takes, for each peer with a
positive counter, the candidate `(peer, vv[peer]-1)` and drops any candidate
included in another candidate's ancestor set (maximal antichain, spec §4.5). -/
def vvToFrontiers (dm : DagMap) (vv : VersionVector) : Frontiers :=
  let cands := vv.filterMap (fun pr => if 0 < pr.2 then some (ID.mk pr.1 (pr.2 - 1)) else none)
  cands.filter (fun d => ! cands.any (fun e => ! decide (e = d) && ancestorIncludes dm e d))

/-- ClientChanges: PeerID → RleVec<Change>. -/
abbrev ClientChanges := List (Nat × RleVecC)

/-- The two decode-error messages of oplog.rs, kept structurally:
`missingDep d` stands for the string `format!("Missing dep {:?}", d)` and
`notAppliableYet` for `"Changes are not appliable yet."`. -/
inductive DecodeMsg where
  | missingDep (d : ID)
  | notAppliableYet
deriving DecidableEq, Repr

/-- LoroError (loro-common error.rs): the two variants reachable from the
OpLog import paths. -/
inductive LoroError where
  | usedOpID (id : ID)
  | decodeError (msg : DecodeMsg)
deriving DecidableEq, Repr

/-- OpLog = { dag, changes, next_lamport, latest_timestamp, pending_changes }.
The arena is not modelled (no claim observes it). -/
structure OpLog where
  dag : AppDag
  changes : ClientChanges
  nextLamport : Nat
  latestTimestamp : Int
  pendingChanges : List (ID × List Change)
deriving DecidableEq, Repr

/-- OpLog::new(). -/
def OpLog.new : OpLog :=
  { dag := { map := [], frontiers := [], vv := [] }
    changes := []
    nextLamport := 0
    latestTimestamp := 0
    pendingChanges := [] }

/-- Result of a `&mut self` import call: `ok` carries the new state, `err`
carries the returned error together with the state left behind (mutations made
before the early return persist), `fatal` marks an `unwrap`/`assert_eq!`
abort. -/
inductive Outcome where
  | ok (s : OpLog)
  | err (e : LoroError) (s : OpLog)
  | fatal
deriving DecidableEq, Repr

/-- State after the call, when the call terminates normally (ok or err). -/
def Outcome.stateAfter : Outcome → Option OpLog
  | .ok s => some s
  | .err _ s => some s
  | .fatal => none

/-- State after a call that returned Ok. -/
def Outcome.okState : Outcome → Option OpLog
  | .ok s => some s
  | _ => none

/-- entry(k).or_default() followed by an update: the first occurrence of the
key is updated in place, a missing key is appended with the default updated. -/
def entryUpdate {α : Type} (m : List (Nat × α)) (p : Nat) (dflt : α) (f : α → α) :
    List (Nat × α) :=
  match m with
  | [] => [(p, f dflt)]
  | (q, v) :: rest =>
    if q = p then (q, f v) :: rest
    else (q, v) :: entryUpdate rest p dflt f

/-- entry(id).or_default() on the pending map (keys are IDs). -/
def pendingUpdate (m : List (ID × List Change)) (d : ID) (c : Change) :
    List (ID × List Change) :=
  match m with
  | [] => [(d, [c])]
  | (k, v) :: rest =>
    if k = d then (k, v ++ [c]) :: rest
    else (k, v) :: pendingUpdate rest d c

/-- Steps 5-6 of local ingestion, shared verbatim with the remote apply loop
(oplog.rs lines 163-187 and 425-451): extend the last per-peer DAG node when
the change only depends on its own predecessor, otherwise push a new node with
`frontiers_to_im_vv(deps)`; then push the change into `changes[peer]`.
`none` models the `unwrap`/`assert_eq!` aborts of the extension path. -/
def applyToDagAndChanges (dm : DagMap) (ch : ClientChanges) (c : Change) :
    Option (DagMap × ClientChanges) :=
  let len := c.contentLen
  let pushed :=
    match c.deps with
    | [d] =>
      if d.peer = c.id.peer then
        match dm.lookup c.id.peer with
        | none => none
        | some nodes =>
          match nodes.getLast? with
          | none => none
          | some lastN =>
            if lastN.peer = c.id.peer ∧ lastN.cnt + lastN.len = c.id.counter ∧
                lastN.lamport + lastN.len = c.lamport then
              some (entryUpdate dm c.id.peer []
                (fun ns => ns.dropLast ++
                  [{ lastN with len := (c.id.counter + len - lastN.cnt).toNat }]))
            else none
      else
        (frontiersToImVv dm c.deps).map fun vv =>
          entryUpdate dm c.id.peer [] (fun ns => nodePush ns
            { vv := vv, peer := c.id.peer, cnt := c.id.counter, lamport := c.lamport,
              deps := c.deps, len := len })
    | _ =>
      (frontiersToImVv dm c.deps).map fun vv =>
        entryUpdate dm c.id.peer [] (fun ns => nodePush ns
          { vv := vv, peer := c.id.peer, cnt := c.id.counter, lamport := c.lamport,
            deps := c.deps, len := len })
  pushed.map fun dm' => (dm', entryUpdate ch c.id.peer ⟨[]⟩ (fun rv => rv.push c))

/-- check_id_is_not_duplicated: fail `UsedOpID` when `vv[peer] > counter`
(missing peers count as 0). This is the Bool guard of that check. -/
def checkIdIsDuplicated (s : OpLog) (id : ID) : Bool :=
  decide ((s.dag.vv.getVV id.peer).getD 0 > id.counter)

/-- check_deps: first dep not included in `dag.vv`, scanning in order. -/
def checkDeps (vv : VersionVector) (deps : Frontiers) : Option ID :=
  deps.find? (fun d => ! vv.includesId d)

/-- import_local_change (oplog.rs lines 139-189).  The debug-only lamport
assertion is skipped (release semantics). -/
def importLocalChange (s : OpLog) (c : Change) : Outcome :=
  if checkIdIsDuplicated s c.id then .err (.usedOpID c.id) s
  else
    match checkDeps s.dag.vv c.deps with
    | some d =>
      .err (.decodeError (.missingDep d))
        { s with pendingChanges := pendingUpdate s.pendingChanges d c }
    | none =>
      let nextLamport := max s.nextLamport c.lamportEnd
      let latestTimestamp := max s.latestTimestamp c.timestamp
      let vv := s.dag.vv.extendToIncludeLastId c.idLast
      let fr := ((s.dag.frontiers.retainNonIncluded c.deps).filterPeer c.id.peer).pushID
        c.idLast
      match applyToDagAndChanges s.dag.map s.changes c with
      | none => .fatal
      | some (dm, ch) =>
        .ok { dag := { map := dm, frontiers := fr, vv := vv }
              changes := ch
              nextLamport := nextLamport
              latestTimestamp := latestTimestamp
              pendingChanges := s.pendingChanges }

/-- RemoteOp: container and payloads are interned on import; only the counter
and the atom lengths of the contents are observable to the OpLog logic, so a
remote op is its counter plus the list of its contents' atom lengths. -/
structure ROp where
  counter : Int
  contents : List Nat
deriving DecidableEq, Repr

/-- atom_len of a remote op = sum of its contents' lengths. -/
def ROp.atomLen (o : ROp) : Nat :=
  o.contents.sum

/-- Change<RemoteOp>. -/
structure RChange where
  ops : List ROp
  id : ID
  deps : Frontiers
  lamport : Nat
  timestamp : Int
deriving DecidableEq, Repr

/-- content_len of a remote change. -/
def RChange.contentLen (c : RChange) : Nat :=
  (c.ops.map ROp.atomLen).sum

/-- id_last of a remote change. -/
def RChange.idLast (c : RChange) : ID :=
  ⟨c.id.peer, c.id.counter + c.contentLen - 1⟩

/-- lamport_end of a remote change. -/
def RChange.lamportEnd (c : RChange) : Nat :=
  c.lamport + c.contentLen

/-- RemoteClientChanges: PeerID → Vec<Change<RemoteOp>>; the association-list
order stands for the hash map's iteration order. -/
abbrev RemoteClientChanges := List (Nat × List RChange)

/-- Interning of one remote change (the `with_op_converter` loop, oplog.rs
lines 401-416): each content of each remote op becomes one interned op with
the remote op's counter.  Atom lengths are preserved. -/
def internChange (c : RChange) : Change :=
  { ops := c.ops.flatMap (fun o => o.contents.map (fun l => ⟨o.counter, l⟩))
    id := c.id
    deps := c.deps
    lamport := c.lamport
    timestamp := c.timestamp }

/-- Preflight of import_remote_changes (oplog.rs lines 361-378): fails when,
for some peer with a vv entry, the batch's first counter is strictly greater
than that entry.  A peer with no vv entry is not checked (`if let Some`). -/
def preflightFails (s : OpLog) (batch : RemoteClientChanges) : Bool :=
  batch.any (fun pr =>
    match pr.2 with
    | [] => false
    | c :: _ =>
      match s.dag.vv.getVV pr.1 with
      | some endCnt => decide (c.id.counter > endCnt)
      | none => false)

/-- Per-peer pre-pass of import_remote_changes (oplog.rs lines 390-394):
extend `dag.vv` to the last incoming change's id_last and raise the clocks.
Runs in batch iteration order; `changes` is not touched here. -/
def remotePrePass (s : OpLog) (pr : Nat × List RChange) : OpLog :=
  match pr.2.getLast? with
  | none => s
  | some lastC =>
    { s with
      dag := { s.dag with vv := s.dag.vv.extendToIncludeLastId lastC.idLast }
      nextLamport := max s.nextLamport lastC.lamportEnd
      latestTimestamp := max s.latestTimestamp lastC.timestamp }

/-- Truncation plus interning for one peer (oplog.rs lines 390-418): changes
whose counter is below the peer's stored atom length are skipped; the kept
ones are interned.  `origChanges` is the change store from before the batch
(the loop never mutates `self.changes`). -/
def truncatedInterned (origChanges : ClientChanges) (p : Nat) (chs : List RChange) :
    List Change :=
  let curEndCnt : Nat := ((origChanges.lookup p).map RleVecC.atomLen).getD 0
  (chs.filter (fun c => ! decide (c.id.counter < (curEndCnt : Int)))).map internChange

/-- Stable insertion by lamport: the new element goes after every element with
a smaller-or-equal lamport already placed. -/
def insLamport (c : Change) : List Change → List Change
  | [] => [c]
  | x :: xs => if c.lamport ≤ x.lamport then c :: x :: xs else x :: insLamport c xs

/-- Stable sort by lamport ascending (`sort_by_key(|x| x.lamport)`; Rust's
sort is stable, and all stable sorts agree, so insertion sort is a faithful
model). -/
def sortByLamport (l : List Change) : List Change :=
  l.foldr insLamport []

/-- The working vector of import_remote_changes before sorting, built in batch
iteration order (oplog.rs lines 381-420). -/
def remoteWorkArr (s : OpLog) (batch : RemoteClientChanges) : List Change :=
  batch.foldl (fun arr pr => arr ++ truncatedInterned s.changes pr.1 pr.2) []

/-- The working vector of import_remote_changes after sorting: the exact
sequence in which the incoming changes are applied (oplog.rs lines 381-425). -/
def remoteSortedArr (s : OpLog) (batch : RemoteClientChanges) : List Change :=
  sortByLamport (remoteWorkArr s batch)

/-- Spec-side definition (refinement target, not from the source): stable
insertion by the lexicographic key (lamport, peer, counter), following the
spec's words "ties are resolved by PeerID implicitly via stable sort with
(lamport, peer, counter) ordering". -/
def lpcLe (a b : Change) : Bool :=
  decide (a.lamport < b.lamport) ||
  (decide (a.lamport = b.lamport) &&
    (decide (a.id.peer < b.id.peer) ||
      (decide (a.id.peer = b.id.peer) && decide (a.id.counter ≤ b.id.counter))))

/-- Spec-side definition: stable insertion step for `specSortLPC`. -/
def insLPC (c : Change) : List Change → List Change
  | [] => [c]
  | x :: xs => if lpcLe c x then c :: x :: xs else x :: insLPC c xs

/-- Spec-side definition: sort by (lamport, peer, counter), to be compared
with the source's application order. -/
def specSortLPC (l : List Change) : List Change :=
  l.foldr insLPC []

/-- Apply loop of import_remote_changes: fold `applyToDagAndChanges` over the
sorted working vector; `none` models the aborts of the extension path. -/
def applyAll (dm : DagMap) (ch : ClientChanges) : List Change →
    Option (DagMap × ClientChanges)
  | [] => some (dm, ch)
  | c :: rest =>
    match applyToDagAndChanges dm ch c with
    | none => none
    | some (dm', ch') => applyAll dm' ch' rest

/-- import_remote_changes (oplog.rs lines 355-455): preflight, per-peer
pre-pass (vv and clocks), truncation + interning, stable sort by lamport,
apply loop, then rebuild `dag.frontiers = vv_to_frontiers(dag.vv)`. -/
def importRemoteChanges (s : OpLog) (batch : RemoteClientChanges) : Outcome :=
  if preflightFails s batch then .err (.decodeError .notAppliableYet) s
  else
    let s1 := batch.foldl remotePrePass s
    let arr := remoteSortedArr s batch
    match applyAll s1.dag.map s1.changes arr with
    | none => .fatal
    | some (dm, ch) =>
      .ok { s1 with
            dag := { map := dm, frontiers := vvToFrontiers dm s1.dag.vv, vv := s1.dag.vv }
            changes := ch }

/-- lookup_change (oplog.rs lines 460-471): only answer when the counter does
not pass the peer's last id, compensating for the RLE one-past-end sentinel.
The source unwraps `last()` and the atom lookup; those aborts (empty per-peer
vector, negative counter) are modelled as `none`. -/
def lookupChange (s : OpLog) (id : ID) : Option Change :=
  (s.changes.lookup id.peer).bind fun rv =>
    match rv.vec.getLast? with
    | none => none
    | some lastC =>
      if id.counter ≤ lastC.idLast.counter then
        (rv.getByAtomIndex id.counter).map SearchResult.element
      else none

/-- Claim-side observable: whether some stored change's id span covers `id`
(the union of `[c.id.counter, c.id.counter + c.content_len)` over `changes`). -/
def OpLog.coversId (s : OpLog) (id : ID) : Bool :=
  match s.changes.lookup id.peer with
  | some rv => rv.vec.any (fun c =>
      decide (c.id.counter ≤ id.counter) && decide (id.counter < c.ctrEnd))
  | none => false

/-! ### Concrete inputs for the settled claims -/

/-- C1 failing input: a remote batch for a peer unknown to the log, starting
at counter 3 (length 2, lamport 5, no deps). -/
def c1batch : RemoteClientChanges := [(1, [⟨[⟨3, [2]⟩], ⟨1, 3⟩, [], 5, 0⟩])]

/-- C2 failing input: the spec's scenario 4 batch, only `c = (id (1,3), deps ∅)`. -/
def c2batch : RemoteClientChanges := [(1, [⟨[⟨3, [1]⟩], ⟨1, 3⟩, [], 0, 0⟩])]

/-- C3 setup: a first local change `(1,0)` of length 5. -/
def c3first : Change := ⟨[⟨0, 5⟩], ⟨1, 0⟩, [], 0, 0⟩

/-- C3 state after importing `c3first` into an empty log. -/
def c3s1 : OpLog := ((importLocalChange OpLog.new c3first).okState).getD OpLog.new

/-- C3 second input: id `(1,2)` is already used, and dep `(2,0)` is missing. -/
def c3second : Change := ⟨[⟨2, 1⟩], ⟨1, 2⟩, [⟨2, 0⟩], 7, 0⟩

/-- C4 failing input: a local change with id `(1,5)` and no deps. -/
def c4gap : Change := ⟨[⟨5, 1⟩], ⟨1, 5⟩, [], 0, 0⟩

/-- C6 buffered change: id `(1,5)`, waiting on the missing dep `(1,4)`. -/
def c6buffered : Change := ⟨[⟨5, 1⟩], ⟨1, 5⟩, [⟨1, 4⟩], 5, 0⟩

/-- C6 state after the buffering failure (pending holds the change). -/
def c6s1 : OpLog := ((importLocalChange OpLog.new c6buffered).stateAfter).getD OpLog.new

/-- C6 second input: the change `(1,0)` of length 5 that covers the missing
dep `(1,4)`. -/
def c6base : Change := ⟨[⟨0, 5⟩], ⟨1, 0⟩, [], 0, 0⟩

/-- C5 tied changes: two independent changes with equal lamport 0 from peers 1
and 2. -/
def c5cA : RChange := ⟨[⟨0, [1]⟩], ⟨1, 0⟩, [], 0, 0⟩

/-- C5 tied change of peer 2. -/
def c5cB : RChange := ⟨[⟨0, [1]⟩], ⟨2, 0⟩, [], 0, 0⟩

/-- C5 batch in one iteration order. -/
def c5b1 : RemoteClientChanges := [(1, [c5cA]), (2, [c5cB])]

/-- C5 the same batch (equal as a peer-to-changes map) in the other iteration
order. -/
def c5b2 : RemoteClientChanges := [(2, [c5cB]), (1, [c5cA])]

/-! ### Claim C1 -/

/-- C1 (code bug): after the *successful* import of `c1batch` into a fresh
OpLog, `dag.vv` includes `(1,0)` although no stored change covers counter 0
(the stored spans only cover `[3,5)`): `dag.vv` is *not* the union of the id
spans of the stored changes, because the remote preflight skips peers that
have no vv entry and accepts a non-contiguous batch. -/
theorem c1_vv_exceeds_stored_spans :
    ((importRemoteChanges OpLog.new c1batch).okState.map
      (fun s => (s.dag.vv.includesId ⟨1, 0⟩, s.coversId ⟨1, 0⟩, s.coversId ⟨1, 3⟩)))
      = some (true, false, true) := by decide

/-! ### Claim C2 -/

/-- C2 (code bug): importing the batch containing only `c = (id (1,3),
deps ∅)` into an empty log *succeeds* (the preflight's `if let Some(end_cnt) =
vv.get(peer)` skips peers with no vv entry), leaving `vv[1] = 4`, instead of
failing with `DecodeError("Changes are not appliable yet.")` as the claim
states. -/
theorem c2_preflight_skips_unknown_peer :
    ((importRemoteChanges OpLog.new c2batch).okState.map
      (fun s => s.dag.vv.getVV 1)) = some (some 4) := by decide

/-! ### Claim C3 -/

/-- C3 counterexample: `c3second` has the missing dep `(2,0)`, yet
`import_local_change` returns `UsedOpID` (the duplicate check runs first),
the state is untouched and nothing is pushed onto `pending`; so the claim's
"some dep missing implies DecodeError plus a pending push" is false as
stated. -/
theorem c3_counterexample :
    (importLocalChange OpLog.new c3first).okState = some c3s1 ∧
    c3s1.dag.vv.includesId ⟨2, 0⟩ = false ∧
    c3s1.pendingChanges = [] ∧
    importLocalChange c3s1 c3second = .err (.usedOpID ⟨1, 2⟩) c3s1 := by decide

/-- C3 (amended): provided the duplicate check passes (`vv[peer] ≤ counter`),
a change with a missing dep fails with a DecodeError naming the *first*
missing dep (scan order of `deps`), that change is pushed onto `pending[d]`,
and the rest of the state is exactly unchanged; and whenever
`vv[peer] > counter`, the call fails with `UsedOpID` and the state (pending
included) is exactly unchanged. -/
theorem c3_amended (s : OpLog) (c : Change) :
    ((s.dag.vv.getVV c.id.peer).getD 0 > c.id.counter →
      importLocalChange s c = .err (.usedOpID c.id) s) ∧
    (¬ ((s.dag.vv.getVV c.id.peer).getD 0 > c.id.counter) →
      ∀ d, checkDeps s.dag.vv c.deps = some d →
        importLocalChange s c = .err (.decodeError (.missingDep d))
          { s with pendingChanges := pendingUpdate s.pendingChanges d c }) := by
  constructor
  · intro h
    simp [importLocalChange, checkIdIsDuplicated, h]
  · intro h d hd
    simp [importLocalChange, checkIdIsDuplicated, h, hd]

/-- C3 witness: the amended theorem at the concrete buffering scenario
(spec scenario 3): `c = (id (1,5), deps {(1,4)})` into an empty log. -/
theorem c3_amended_witness :
    importLocalChange OpLog.new c6buffered =
      .err (.decodeError (.missingDep ⟨1, 4⟩))
        { OpLog.new with
          pendingChanges := pendingUpdate OpLog.new.pendingChanges ⟨1, 4⟩ c6buffered } :=
  (c3_amended OpLog.new c6buffered).2 (by decide) ⟨1, 4⟩ (by decide)

/-! ### Claim C4 -/

/-- C4 (code bug): `import_local_change` of a change with id `(1,5)` and empty
deps into a fresh log *succeeds* although `vv[1] = 0 ≠ 5`; afterwards
`changes[1]` covers counter 5 but not counter 0, so the stored counters are
neither consecutive nor starting at 0. -/
theorem c4_gap_accepted :
    ((importLocalChange OpLog.new c4gap).okState.map
      (fun s => (s.coversId ⟨1, 0⟩, s.coversId ⟨1, 5⟩, s.dag.vv.getVV 1)))
      = some (false, true, some 6) := by decide

/-! ### Claim C6 -/

/-- C6 (code bug): after `c6buffered` (id `(1,5)`, dep `(1,4)`) is buffered
into `pending[(1,4)]` and the change `(1,0)..(1,4)` is then successfully
imported — so `vv.includes_id((1,4))` now holds — the buffered change is
*not* retried: it stays in `pending`, and the log still does not cover
`(1,5)`.  No drain of `pending` exists anywhere in oplog.rs. -/
theorem c6_pending_never_drained :
    importLocalChange OpLog.new c6buffered =
      .err (.decodeError (.missingDep ⟨1, 4⟩)) c6s1 ∧
    ((importLocalChange c6s1 c6base).okState.map
      (fun s => (s.pendingChanges.lookup (ID.mk 1 4), s.dag.vv.includesId ⟨1, 4⟩,
        s.coversId ⟨1, 5⟩)))
      = some (some [c6buffered], true, false) := by decide

/-! ### Claim C5: counterexample -/

/-- C5 counterexample: `c5b1` and `c5b2` are the same peer-to-changes map
(they are permutations of each other and agree on every lookup), yet the
application order of `import_remote_changes` differs between them, and for
`c5b2` it does not agree with sorting by (lamport, peer, counter): the
lamport tie between peers 1 and 2 is kept in hash-iteration order by the
stable sort, not resolved by PeerID. -/
theorem c5_counterexample :
    List.Perm c5b1 c5b2 ∧
    c5b1.lookup 1 = c5b2.lookup 1 ∧
    c5b1.lookup 2 = c5b2.lookup 2 ∧
    remoteSortedArr OpLog.new c5b1 ≠ remoteSortedArr OpLog.new c5b2 ∧
    remoteSortedArr OpLog.new c5b2 ≠ specSortLPC (remoteSortedArr OpLog.new c5b2) := by
  refine ⟨by decide, by decide, by decide, by decide, by decide⟩

/-! ### Claim C10: clock monotonicity -/

/-- The remote pre-pass only raises `next_lamport`. -/
theorem prePass_nextLamport_le (batch : RemoteClientChanges) :
    ∀ s : OpLog, s.nextLamport ≤ (batch.foldl remotePrePass s).nextLamport := by
  induction batch with
  | nil => intro s; simp
  | cons pr rest ih =>
    intro s
    refine le_trans ?_ (ih (remotePrePass s pr))
    unfold remotePrePass
    cases pr.2.getLast? <;> simp

/-- The remote pre-pass only raises `latest_timestamp`. -/
theorem prePass_latestTimestamp_le (batch : RemoteClientChanges) :
    ∀ s : OpLog, s.latestTimestamp ≤ (batch.foldl remotePrePass s).latestTimestamp := by
  induction batch with
  | nil => intro s; simp
  | cons pr rest ih =>
    intro s
    refine le_trans ?_ (ih (remotePrePass s pr))
    unfold remotePrePass
    cases pr.2.getLast? <;> simp

/-- C10 (confirmed): `next_lamport` and `latest_timestamp` never decrease
across `import_local_change` or `import_remote_changes`, whether the call
returns Ok or Err (states are compared whenever the call terminates with a
state, i.e. does not abort). -/
theorem c10_clock_monotonic (s : OpLog) (c : Change) (batch : RemoteClientChanges) :
    (∀ s', (importLocalChange s c).stateAfter = some s' →
      s.nextLamport ≤ s'.nextLamport ∧ s.latestTimestamp ≤ s'.latestTimestamp) ∧
    (∀ s', (importRemoteChanges s batch).stateAfter = some s' →
      s.nextLamport ≤ s'.nextLamport ∧ s.latestTimestamp ≤ s'.latestTimestamp) := by
  constructor
  · intro s' hs'
    unfold importLocalChange at hs'
    split at hs'
    · simp [Outcome.stateAfter] at hs'
      simp [← hs']
    · split at hs'
      · simp [Outcome.stateAfter] at hs'
        simp [← hs']
      · split at hs'
        · simp [Outcome.stateAfter] at hs'
        · simp [Outcome.stateAfter] at hs'
          simp [← hs', le_max_left]
  · intro s' hs'
    unfold importRemoteChanges at hs'
    split at hs'
    · simp [Outcome.stateAfter] at hs'
      simp [← hs']
    · dsimp only at hs'
      split at hs'
      · simp [Outcome.stateAfter] at hs'
      · simp [Outcome.stateAfter] at hs'
        subst hs'
        exact ⟨prePass_nextLamport_le batch s, prePass_latestTimestamp_le batch s⟩

/-- C10 input used by the witness. -/
def c10input : Change := ⟨[⟨0, 1⟩], ⟨7, 0⟩, [], 3, 9⟩

/-- C10 resulting state at the witness input. -/
def c10after : OpLog := ((importLocalChange OpLog.new c10input).stateAfter).getD OpLog.new

/-- C10 witness: the monotonicity theorem applied at a concrete import. -/
theorem c10_clock_monotonic_witness :
    OpLog.new.nextLamport ≤ c10after.nextLamport ∧
    OpLog.new.latestTimestamp ≤ c10after.latestTimestamp :=
  (c10_clock_monotonic OpLog.new c10input []).1 c10after (by decide)

/-! ### loro-common: ContainerType byte codec (C9) -/

/-- ContainerType (loro-common lib.rs, source order Text, Map, List). -/
inductive ContainerType where
  | text
  | map
  | list
deriving DecidableEq, Repr

/-- to_u8: Map = 1, List = 2, Text = 3. -/
def ContainerType.toU8 : ContainerType → Nat
  | .map => 1
  | .list => 2
  | .text => 3

/-- from_u8: bytes outside 1..=3 hit `unreachable!()`; `none` models that
abort — the source produces no value and no decode error there. -/
def ContainerType.fromU8 : Nat → Option ContainerType
  | 1 => some .map
  | 2 => some .list
  | 3 => some .text
  | _ => none

/-- AsULE::to_unaligned, same table as to_u8. -/
def ContainerType.toUnaligned : ContainerType → Nat
  | .map => 1
  | .list => 2
  | .text => 3

/-- AsULE::from_unaligned, same table and the same `unreachable!()` on other
bytes (modelled as `none`). -/
def ContainerType.fromUnaligned : Nat → Option ContainerType
  | 1 => some .map
  | 2 => some .list
  | 3 => some .text
  | _ => none

/-- C9 counterexample: converting the byte 0 (or 200) does not produce a
decode error — `from_u8`/`from_unaligned` hit `unreachable!()` and abort
(modelled by `none`, i.e. no value of any kind is returned). -/
theorem c9_counterexample :
    ContainerType.fromU8 0 = none ∧ ContainerType.fromUnaligned 0 = none ∧
    ContainerType.fromU8 200 = none := by
  refine ⟨rfl, rfl, rfl⟩

/-- C9 (amended): the byte tags are Map = 1, List = 2, Text = 3, converting
each tag back yields the original type, and every byte outside 1..=3 makes
`from_u8`/`from_unaligned` hit `unreachable!()` (an abort, not a decode
error). -/
theorem c9_amended :
    (ContainerType.toU8 .map = 1 ∧ ContainerType.toU8 .list = 2 ∧
      ContainerType.toU8 .text = 3) ∧
    (∀ t, ContainerType.fromU8 t.toU8 = some t ∧
      ContainerType.fromUnaligned t.toUnaligned = some t) ∧
    (∀ v : Nat, ¬ (1 ≤ v ∧ v ≤ 3) →
      ContainerType.fromU8 v = none ∧ ContainerType.fromUnaligned v = none) := by
  refine ⟨⟨rfl, rfl, rfl⟩, fun t => by cases t <;> exact ⟨rfl, rfl⟩, fun v hv => ?_⟩
  match v with
  | 0 => exact ⟨rfl, rfl⟩
  | 1 => exact absurd ⟨by omega, by omega⟩ hv
  | 2 => exact absurd ⟨by omega, by omega⟩ hv
  | 3 => exact absurd ⟨by omega, by omega⟩ hv
  | n + 4 => exact ⟨rfl, rfl⟩

/-- C9 witness: the amended theorem applied at the type Map and the byte 0. -/
theorem c9_amended_witness :
    ContainerType.fromU8 (ContainerType.toU8 .map) = some .map ∧
    ContainerType.fromU8 0 = none :=
  ⟨(c9_amended.2.1 .map).1, (c9_amended.2.2 0 (by omega)).1⟩

/-! ### Decimal formatting and parsing (for the ContainerID string form, C8) -/

/-- Decimal digit to character. -/
def digitChar : Nat → Char
  | 0 => '0'
  | 1 => '1'
  | 2 => '2'
  | 3 => '3'
  | 4 => '4'
  | 5 => '5'
  | 6 => '6'
  | 7 => '7'
  | 8 => '8'
  | 9 => '9'
  | _ => '*'

/-- Character to decimal digit (none on non-digits). -/
def digitVal? (c : Char) : Option Nat :=
  if c = '0' then some 0
  else if c = '1' then some 1
  else if c = '2' then some 2
  else if c = '3' then some 3
  else if c = '4' then some 4
  else if c = '5' then some 5
  else if c = '6' then some 6
  else if c = '7' then some 7
  else if c = '8' then some 8
  else if c = '9' then some 9
  else none

/-- Least-significant-first decimal digits of `n` (fuel-guarded so that the
kernel can evaluate it; the fuel is always taken `≥ n`). -/
def natToRevDigitsAux : Nat → Nat → List Char
  | _, 0 => []
  | 0, _ + 1 => []
  | fuel + 1, n + 1 => digitChar ((n + 1) % 10) :: natToRevDigitsAux fuel ((n + 1) / 10)

/-- Decimal form of a Nat, the model of Rust's `u64` Display. -/
def natToChars (n : Nat) : List Char :=
  if n = 0 then ['0'] else (natToRevDigitsAux n n).reverse

/-- Decimal form of an Int, the model of Rust's `i32` Display: a minus sign
followed by the magnitude for negatives. -/
def intToChars (i : Int) : List Char :=
  if i < 0 then '-' :: natToChars i.natAbs else natToChars i.toNat

/-- Accumulating decimal parse of a digit string. -/
def parseLoop (acc : Nat) (l : List Char) : Option Nat :=
  l.foldl (fun o c => o.bind fun a => (digitVal? c).map fun d => a * 10 + d) (some acc)

/-- Parse of a non-empty all-digit string (overflow of the machine width is
not modelled; the formatted outputs parsed by the claims are in range). -/
def parseNatCore (l : List Char) : Option Nat :=
  match l with
  | [] => none
  | _ => parseLoop 0 l

/-- Model of Rust's `str::parse::<u64>`: optional leading `+`, then digits. -/
def parseNatRust (l : List Char) : Option Nat :=
  match l with
  | [] => none
  | c :: rest => if c = '+' then parseNatCore rest else parseNatCore l

/-- Model of Rust's `str::parse::<i32>`: optional sign, then digits. -/
def parseIntRust (l : List Char) : Option Int :=
  match l with
  | [] => none
  | c :: rest =>
    if c = '-' then (parseNatCore rest).map (fun v : Nat => -(v : Int))
    else if c = '+' then (parseNatCore rest).map (fun v : Nat => (v : Int))
    else (parseNatCore l).map (fun v : Nat => (v : Int))

/-- Model of Rust's `str::split(sep)`: list of separator-free chunks. -/
def splitOnChar (sep : Char) : List Char → List (List Char)
  | [] => [[]]
  | c :: rest =>
    match splitOnChar sep rest with
    | [] => [[]]
    | h :: t => if c = sep then [] :: h :: t else (c :: h) :: t

/-! ### loro-common: ContainerID string codec (C8) -/

/-- Modelled from the spec: an `ID` displays as `<counter>@<peer>` (id.rs is
not among the provided sources; the spec fixes this string form). -/
def idDisplayChars (counter : Int) (peer : Nat) : List Char :=
  intToChars counter ++ '@' :: natToChars peer

/-- ContainerID (loro-common lib.rs); the interned name is a list of chars. -/
inductive ContainerID where
  | root (name : List Char) (containerType : ContainerType)
  | normal (peer : Nat) (counter : Int) (containerType : ContainerType)
deriving DecidableEq, Repr

/-- Display for ContainerType: the exact case-sensitive token. -/
def ContainerType.displayChars : ContainerType → List Char
  | .map => "Map".data
  | .list => "List".data
  | .text => "Text".data

/-- TryFrom<&str> for ContainerType; unknown tokens give the decode error
(`none`). -/
def ContainerType.tryFromChars (l : List Char) : Option ContainerType :=
  if l = "Map".data then some .map
  else if l = "List".data then some .list
  else if l = "Text".data then some .text
  else none

/-- Display for ContainerID: `/<name>:<Type>` for roots,
`<counter>@<peer>:<Type>` for normals. -/
def ContainerID.displayChars : ContainerID → List Char
  | .root name t => '/' :: name ++ ':' :: t.displayChars
  | .normal peer counter t => idDisplayChars counter peer ++ ':' :: t.displayChars

/-- Parse of the id part of a normal container: `<counter>@<peer>`, mirroring
the source's `split('@')` followed by two `parse` calls (extra `@` chunks are
ignored, as `parts.next()` is only called twice). -/
def normalFromChars (idPart : List Char) (ct : ContainerType) : Option ContainerID :=
  match splitOnChar '@' idPart with
  | [] => none
  | [_] => none
  | cPart :: pPart :: _ =>
    match parseIntRust cPart with
    | none => none
    | some counter =>
      match parseNatRust pPart with
      | none => none
      | some peer => some (.normal peer counter ct)

/-- Branch on `strip_prefix('/')`: a leading slash gives a root container,
anything else is parsed as a normal container id. -/
def rootOrNormal (idPart : List Char) (ct : ContainerType) : Option ContainerID :=
  match idPart with
  | [] => normalFromChars [] ct
  | c :: rest => if c = '/' then some (.root rest ct) else normalFromChars (c :: rest) ct

/-- TryFrom<&str> for ContainerID (loro-common lib.rs lines 161-185): split on
`':'`, take the first chunk as the id and the second as the type (later
chunks are ignored, as the source only calls `parts.next()` twice). -/
def ContainerID.tryFromChars (value : List Char) : Option ContainerID :=
  match splitOnChar ':' value with
  | [] => none
  | [_] => none
  | idPart :: tyPart :: _ =>
    match ContainerType.tryFromChars tyPart with
    | none => none
    | some ct => rootOrNormal idPart ct

/-! ### Lemmas about the decimal codec -/

/-- Digit characters round-trip through `digitVal?`. -/
theorem digitVal?_digitChar {d : Nat} (h : d < 10) : digitVal? (digitChar d) = some d := by
  interval_cases d <;> rfl

/-- Every character produced by the digit writer is a digit. -/
theorem mem_natToRevDigitsAux_digit :
    ∀ fuel n c, c ∈ natToRevDigitsAux fuel n → (digitVal? c).isSome := by
  intro fuel
  induction fuel with
  | zero => intro n c hc; cases n <;> simp [natToRevDigitsAux] at hc
  | succ f ih =>
    intro n c hc
    cases n with
    | zero => simp [natToRevDigitsAux] at hc
    | succ m =>
      simp only [natToRevDigitsAux, List.mem_cons] at hc
      rcases hc with rfl | hc
      · rw [digitVal?_digitChar (Nat.mod_lt _ (by omega))]
        rfl
      · exact ih _ c hc

/-- Every character of `natToChars` is a digit. -/
theorem mem_natToChars_digit {n : Nat} {c : Char} (h : c ∈ natToChars n) :
    (digitVal? c).isSome := by
  unfold natToChars at h
  split at h
  · simp at h
    subst h
    rfl
  · exact mem_natToRevDigitsAux_digit n n c (List.mem_reverse.mp h)

/-- Non-digit characters (used as separators) never occur in `natToChars`. -/
theorem not_mem_natToChars {n : Nat} {c : Char} (hc : digitVal? c = none) :
    c ∉ natToChars n := by
  intro h
  have := mem_natToChars_digit h
  rw [hc] at this
  exact absurd this (by simp)

/-- The digit writer never returns an empty list on a positive input. -/
theorem natToChars_ne_nil (n : Nat) : natToChars n ≠ [] := by
  unfold natToChars
  split
  · simp
  · rename_i hn
    have hpos : 0 < n := Nat.pos_of_ne_zero hn
    rcases n with _ | m
    · omega
    · simp [natToRevDigitsAux]

/-- Folding the parser over an appended chunk factors through the prefix. -/
theorem parseLoop_append_some {acc v : Nat} {xs : List Char} (ys : List Char)
    (h : parseLoop acc xs = some v) : parseLoop acc (xs ++ ys) = parseLoop v ys := by
  unfold parseLoop at h ⊢
  rw [List.foldl_append, h]

/-- A single digit character advances the accumulator by one decimal place. -/
theorem parseLoop_single {v d : Nat} (hd : d < 10) :
    parseLoop v [digitChar d] = some (v * 10 + d) := by
  simp [parseLoop, digitVal?_digitChar hd]

/-- The parser inverts the digit writer, with an accumulator. -/
theorem parseLoop_natToRevDigitsAux :
    ∀ fuel n acc, 0 < n → n ≤ fuel →
      parseLoop acc (natToRevDigitsAux fuel n).reverse =
        some (acc * 10 ^ (natToRevDigitsAux fuel n).length + n) := by
  intro fuel
  induction fuel with
  | zero => intro n acc hn hf; omega
  | succ f ih =>
    intro n acc hn hf
    rcases n with _ | m
    · omega
    have hdm := Nat.div_add_mod (m + 1) 10
    have hmod : (m + 1) % 10 < 10 := Nat.mod_lt _ (by omega)
    by_cases hq : (m + 1) / 10 = 0
    · have hr : (m + 1) % 10 = m + 1 := by omega
      simp only [natToRevDigitsAux, hq, List.reverse_cons, List.reverse_nil, List.nil_append,
        List.length_cons, List.length_nil]
      rw [parseLoop_single hmod, hr]
      norm_num
    · have hqpos : 0 < (m + 1) / 10 := Nat.pos_of_ne_zero hq
      have hlt : (m + 1) / 10 < m + 1 := Nat.div_lt_self (by omega) (by omega)
      have hqle : (m + 1) / 10 ≤ f := by omega
      simp only [natToRevDigitsAux, List.reverse_cons, List.length_cons]
      rw [parseLoop_append_some [digitChar ((m + 1) % 10)] (ih ((m + 1) / 10) acc hqpos hqle)]
      rw [parseLoop_single hmod]
      congr 1
      have hpow : (10 : Nat) ^ ((natToRevDigitsAux f ((m + 1) / 10)).length + 1) =
          10 ^ (natToRevDigitsAux f ((m + 1) / 10)).length * 10 := pow_succ 10 _
      rw [hpow]
      set k := (10 : Nat) ^ (natToRevDigitsAux f ((m + 1) / 10)).length
      ring_nf
      omega

/-- Unfolding equation for `natToChars` on positive inputs. -/
theorem natToChars_pos {n : Nat} (hn : 0 < n) :
    natToChars n = (natToRevDigitsAux n n).reverse := by
  unfold natToChars
  rw [if_neg (by omega)]

/-- The core parser inverts the Nat writer. -/
theorem parseNatCore_natToChars (n : Nat) : parseNatCore (natToChars n) = some n := by
  rcases Nat.eq_zero_or_pos n with rfl | hn
  · rfl
  · have hmain := parseLoop_natToRevDigitsAux n n 0 hn (le_refl n)
    rcases hl : natToChars n with _ | ⟨c, cs⟩
    · exact absurd hl (natToChars_ne_nil n)
    · have : parseNatCore (c :: cs) = parseLoop 0 (c :: cs) := rfl
      rw [this, ← hl, natToChars_pos hn, hmain]
      simp

/-- Heads of `natToChars` are digits, hence not sign or separator marks. -/
theorem natToChars_head_digit (n : Nat) :
    ∃ c cs, natToChars n = c :: cs ∧ (digitVal? c).isSome := by
  rcases hl : natToChars n with _ | ⟨c, cs⟩
  · exact absurd hl (natToChars_ne_nil n)
  · exact ⟨c, cs, rfl, mem_natToChars_digit (by rw [hl]; exact List.mem_cons_self c cs)⟩

/-- The Rust-style u64 parser inverts the Nat writer. -/
theorem parseNatRust_natToChars (n : Nat) : parseNatRust (natToChars n) = some n := by
  obtain ⟨c, cs, hl, hd⟩ := natToChars_head_digit n
  have hplus : c ≠ '+' := by
    intro h
    rw [h] at hd
    simp [digitVal?] at hd
  rw [hl]
  show (if c = '+' then parseNatCore cs else parseNatCore (c :: cs)) = some n
  rw [if_neg hplus, ← hl]
  exact parseNatCore_natToChars n

/-- The Rust-style i32 parser inverts the Int writer. -/
theorem parseIntRust_intToChars (i : Int) : parseIntRust (intToChars i) = some i := by
  by_cases hneg : i < 0
  · rw [intToChars, if_pos hneg]
    show (if ('-' : Char) = '-' then (parseNatCore (natToChars i.natAbs)).map
        (fun v : Nat => -(v : Int))
      else if ('-' : Char) = '+' then (parseNatCore (natToChars i.natAbs)).map
        (fun v : Nat => (v : Int))
      else (parseNatCore ('-' :: natToChars i.natAbs)).map
        (fun v : Nat => (v : Int))) = some i
    rw [if_pos rfl, parseNatCore_natToChars]
    simp only [Option.map_some']
    congr 1
    have : (i.natAbs : Int) = -i := Int.ofNat_natAbs_of_nonpos (le_of_lt hneg)
    omega
  · rw [intToChars, if_neg hneg]
    obtain ⟨c, cs, hl, hd⟩ := natToChars_head_digit i.toNat
    have hminus : c ≠ '-' := by
      intro h
      rw [h] at hd
      simp [digitVal?] at hd
    have hplus : c ≠ '+' := by
      intro h
      rw [h] at hd
      simp [digitVal?] at hd
    rw [hl]
    show (if c = '-' then (parseNatCore cs).map (fun v : Nat => -(v : Int))
      else if c = '+' then (parseNatCore cs).map (fun v : Nat => (v : Int))
      else (parseNatCore (c :: cs)).map (fun v : Nat => (v : Int))) = some i
    rw [if_neg hminus, if_neg hplus, ← hl, parseNatCore_natToChars]
    simp only [Option.map_some']
    congr 1
    omega

/-! ### Lemmas about splitting -/

/-- The splitter never returns an empty list of chunks. -/
theorem splitOnChar_ne_nil (sep : Char) (l : List Char) : splitOnChar sep l ≠ [] := by
  cases l with
  | nil => simp [splitOnChar]
  | cons c rest =>
    unfold splitOnChar
    rcases splitOnChar sep rest with _ | ⟨h, t⟩
    · simp
    · dsimp only
      split <;> simp

/-- A separator-free list is a single chunk. -/
theorem splitOnChar_not_mem {sep : Char} {l : List Char} (h : sep ∉ l) :
    splitOnChar sep l = [l] := by
  induction l with
  | nil => rfl
  | cons c rest ih =>
    have hc : c ≠ sep := fun hh => h (hh ▸ List.mem_cons_self c rest)
    have hrest : sep ∉ rest := fun hh => h (List.mem_cons_of_mem c hh)
    unfold splitOnChar
    rw [ih hrest]
    simp [hc]

/-- Unfolding equation of the splitter on a cons cell. -/
theorem splitOnChar_cons (sep c : Char) (rest : List Char) :
    splitOnChar sep (c :: rest) =
      match splitOnChar sep rest with
      | [] => [[]]
      | h :: t => if c = sep then [] :: h :: t else (c :: h) :: t := rfl

/-- Splitting at the first separator occurrence peels off the prefix. -/
theorem splitOnChar_append {sep : Char} {a : List Char} (b : List Char) (h : sep ∉ a) :
    splitOnChar sep (a ++ sep :: b) = a :: splitOnChar sep b := by
  induction a with
  | nil =>
    simp only [List.nil_append]
    rw [splitOnChar_cons]
    rcases hb : splitOnChar sep b with _ | ⟨hh, t⟩
    · exact absurd hb (splitOnChar_ne_nil sep b)
    · simp
  | cons c a' ih =>
    have hc : c ≠ sep := fun hh => h (hh ▸ List.mem_cons_self c a')
    have ha' : sep ∉ a' := fun hh => h (List.mem_cons_of_mem c hh)
    simp only [List.cons_append]
    rw [splitOnChar_cons, ih ha']
    simp [hc]

/-! ### Claim C8: ContainerID round-trip -/

/-- The type tokens contain no colon. -/
theorem displayChars_no_colon (t : ContainerType) : (':' : Char) ∉ t.displayChars := by
  cases t <;> decide

/-- The type tokens parse back to their type. -/
theorem tryFromChars_displayChars (t : ContainerType) :
    ContainerType.tryFromChars t.displayChars = some t := by
  cases t <;> rfl

/-- A character that is neither a digit nor the minus sign is not printed by
the Int writer. -/
theorem not_mem_intToChars {c0 : Char} (i : Int) (h : digitVal? c0 = none)
    (h2 : c0 ≠ '-') : c0 ∉ intToChars i := by
  unfold intToChars
  split
  · intro hm
    rcases List.mem_cons.mp hm with hm | hm
    · exact h2 hm
    · exact not_mem_natToChars h hm
  · exact not_mem_natToChars h

/-- The Int writer emits at least one character, and never a leading slash. -/
theorem intToChars_head_not_slash (i : Int) :
    ∃ c cs, intToChars i = c :: cs ∧ c ≠ '/' := by
  unfold intToChars
  split
  · exact ⟨'-', natToChars i.natAbs, rfl, by decide⟩
  · obtain ⟨c, cs, hl, hd⟩ := natToChars_head_digit i.toNat
    refine ⟨c, cs, hl, ?_⟩
    intro h
    rw [h] at hd
    simp [digitVal?] at hd

/-- Unfolding equation for `rootOrNormal` on a cons cell. -/
theorem rootOrNormal_cons (c : Char) (rest : List Char) (ct : ContainerType) :
    rootOrNormal (c :: rest) ct =
      if c = '/' then some (.root rest ct) else normalFromChars (c :: rest) ct := rfl

/-- Claim-side validity of a ContainerID for the round-trip: the name of a
root container must not contain the `':'` separator (normal containers are
unrestricted). -/
def c8ValidName : ContainerID → Prop
  | .root name _ => (':' : Char) ∉ name
  | .normal _ _ _ => True

/-- C8 counterexample: the ContainerID `Root{name: ":", Text}` does not
round-trip — its string form is `/::Text`, whose second `':'`-chunk is the
empty type token, so `try_from` fails instead of returning the original. -/
theorem c8_counterexample :
    ContainerID.tryFromChars (ContainerID.displayChars (.root ":".data .text)) = none := by
  decide

/-- C8 (amended): every ContainerID whose root name is free of `':'`
round-trips through its string form (normal containers always do), and the
two concrete instances serialize to `/root:Text` and `7@42:Map`. -/
theorem c8_amended :
    (∀ cid : ContainerID, c8ValidName cid →
      ContainerID.tryFromChars cid.displayChars = some cid) ∧
    ContainerID.displayChars (.root "root".data .text) = "/root:Text".data ∧
    ContainerID.displayChars (.normal 42 7 .map) = "7@42:Map".data := by
  refine ⟨?_, by decide, by decide⟩
  intro cid hv
  cases cid with
  | root name t =>
    have hslash : (':' : Char) ∉ '/' :: name := by
      intro h
      rcases List.mem_cons.mp h with h | h
      · exact absurd h (by decide)
      · exact hv h
    have hty : splitOnChar ':' t.displayChars = [t.displayChars] :=
      splitOnChar_not_mem (displayChars_no_colon t)
    show ContainerID.tryFromChars ('/' :: name ++ ':' :: t.displayChars) = _
    rw [show ('/' :: name ++ ':' :: t.displayChars) =
      (('/' :: name) ++ ':' :: t.displayChars) from rfl]
    unfold ContainerID.tryFromChars
    rw [splitOnChar_append t.displayChars hslash, hty]
    simp only [tryFromChars_displayChars]
    rw [rootOrNormal_cons, if_pos rfl]
  | normal p c t =>
    have hdigColon : digitVal? ':' = none := rfl
    have hdigAt : digitVal? '@' = none := rfl
    have hcolonInt : (':' : Char) ∉ intToChars c :=
      not_mem_intToChars c hdigColon (by decide)
    have hcolonNat : (':' : Char) ∉ natToChars p := not_mem_natToChars hdigColon
    have hatInt : ('@' : Char) ∉ intToChars c := not_mem_intToChars c hdigAt (by decide)
    have hatNat : ('@' : Char) ∉ natToChars p := not_mem_natToChars hdigAt
    have hidColon : (':' : Char) ∉ intToChars c ++ '@' :: natToChars p := by
      intro h
      rcases List.mem_append.mp h with h | h
      · exact hcolonInt h
      · rcases List.mem_cons.mp h with h | h
        · exact absurd h (by decide)
        · exact hcolonNat h
    have hty : splitOnChar ':' t.displayChars = [t.displayChars] :=
      splitOnChar_not_mem (displayChars_no_colon t)
    show ContainerID.tryFromChars
        ((intToChars c ++ '@' :: natToChars p) ++ ':' :: t.displayChars) = _
    unfold ContainerID.tryFromChars
    rw [splitOnChar_append t.displayChars hidColon, hty]
    simp only [tryFromChars_displayChars]
    obtain ⟨hc, hcs, hl, hslash⟩ := intToChars_head_not_slash c
    rw [show intToChars c ++ '@' :: natToChars p = hc :: (hcs ++ '@' :: natToChars p) by
      rw [hl]; rfl]
    rw [rootOrNormal_cons, if_neg hslash]
    unfold normalFromChars
    rw [show hc :: (hcs ++ '@' :: natToChars p) = (hc :: hcs) ++ '@' :: natToChars p
      from rfl]
    rw [← hl, splitOnChar_append (natToChars p) hatInt,
      splitOnChar_not_mem hatNat]
    dsimp only
    rw [parseIntRust_intToChars c, parseNatRust_natToChars p]

/-- C8 witness: the amended round-trip at the two instances named by the
claim, `Root{name: "root", Text}` and `Normal{peer: 42, counter: 7, Map}`. -/
theorem c8_amended_witness :
    ContainerID.tryFromChars (ContainerID.displayChars (.root "root".data .text)) =
      some (.root "root".data .text) ∧
    ContainerID.tryFromChars (ContainerID.displayChars (.normal 42 7 .map)) =
      some (.normal 42 7 .map) :=
  ⟨c8_amended.1 _ (show (':' : Char) ∉ "root".data by decide), c8_amended.1 _ trivial⟩

/-! ### Claim C7: lookup_change -/

/-- C7 failing input: a remote batch for an unknown peer starting at counter 2
(accepted because of the preflight hole, leaving a non-contiguous store). -/
def c7batch : RemoteClientChanges := [(1, [⟨[⟨2, [1]⟩], ⟨1, 2⟩, [], 0, 0⟩])]

/-- C7 counterexample: in the reachable state obtained by importing `c7batch`
into a fresh log, `dag.vv.includes_id((1,0))` holds and `lookup_change((1,0))`
returns a change `c`, but `c.id.counter = 2 > 0`: the claimed span condition
`c.id.counter ≤ id.counter` fails (the atom index is a positional index, not
a counter, and the store does not start at counter 0 here). -/
theorem c7_counterexample :
    ((importRemoteChanges OpLog.new c7batch).okState.map fun s =>
      (s.dag.vv.includesId ⟨1, 0⟩,
        (lookupChange s ⟨1, 0⟩).map (fun c => decide (c.id.counter ≤ 0))))
      = some (true, some false) := by decide

/-- Contiguity of stored changes: counters run consecutively from `k`, each
stored change non-empty (spec P3 restricted to one peer's store). -/
def contiguousFrom (k : Int) : List Change → Bool
  | [] => true
  | c :: rest =>
    decide (c.id.counter = k) && decide (0 < c.contentLen) &&
    contiguousFrom (k + c.contentLen) rest

/-- includes_id when the peer is absent. -/
theorem includesId_of_getVV_none {vv : VersionVector} {id : ID}
    (h : vv.getVV id.peer = none) : vv.includesId id = false := by
  unfold VersionVector.includesId
  rw [h]

/-- includes_id when the peer has an entry. -/
theorem includesId_of_getVV_some {vv : VersionVector} {id : ID} {c : Int}
    (h : vv.getVV id.peer = some c) : vv.includesId id = decide (id.counter < c) := by
  unfold VersionVector.includesId
  rw [h]

/-- First-match lookup hits a member of the association list. -/
theorem lookup_mem {α : Type} {l : List (Nat × α)} {k : Nat} {v : α}
    (h : l.lookup k = some v) : (k, v) ∈ l := by
  induction l with
  | nil => simp [List.lookup] at h
  | cons pr rest ih =>
    rcases pr with ⟨q, w⟩
    rw [List.lookup] at h
    split at h
    · rename_i hbe
      have hkq : k = q := by simpa using hbe
      rw [Option.some_inj] at h
      subst hkq
      subst h
      exact List.mem_cons_self _ _
    · exact List.mem_cons_of_mem _ (ih h)

/-- In a contiguous store, the last change ends at `k` plus the total atom
length. -/
theorem contiguous_getLast :
    ∀ (l : List Change) (k : Int) (lastC : Change), contiguousFrom k l = true →
      l.getLast? = some lastC →
      lastC.ctrEnd = k + ((l.map Change.contentLen).sum : Int) := by
  intro l
  induction l with
  | nil => intro k lastC _ hg; simp at hg
  | cons c rest ih =>
    intro k lastC h hg
    simp only [contiguousFrom, Bool.and_eq_true, decide_eq_true_eq] at h
    obtain ⟨⟨hk, _⟩, hrest⟩ := h
    rcases rest with _ | ⟨d, rest'⟩
    · simp at hg
      subst hg
      simp only [Change.ctrEnd, hk, List.map_cons, List.map_nil, List.sum_cons,
        List.sum_nil]
      push_cast
      ring
    · rw [List.getLast?_cons_cons] at hg
      have := ih (k + c.contentLen) lastC hrest hg
      rw [this]
      simp only [List.map_cons, List.sum_cons]
      push_cast
      ring

/-- In a contiguous store, the atom walk starting at accumulator `k` finds,
for every in-range index, the change whose counter span contains it. -/
theorem contiguous_getAtomGo :
    ∀ (l : List Change) (k n : Int) (idx : Nat), contiguousFrom k l = true →
      k ≤ n → n < k + ((l.map Change.contentLen).sum : Int) →
      ∃ r : SearchResult, getAtomGo idx k n l = some r ∧
        r.element.id.counter ≤ n ∧ n < r.element.ctrEnd := by
  intro l
  induction l with
  | nil => intro k n idx _ h1 h2; simp at h2; omega
  | cons c rest ih =>
    intro k n idx h h1 h2
    simp only [contiguousFrom, Bool.and_eq_true, decide_eq_true_eq] at h
    obtain ⟨⟨hk, hpos⟩, hrest⟩ := h
    by_cases hin : n < k + (c.contentLen : Int)
    · refine ⟨⟨idx, n - k, c⟩, ?_, ?_, ?_⟩
      · unfold getAtomGo
        rw [if_pos hin]
      · simpa [hk] using h1
      · simpa [Change.ctrEnd, hk] using hin
    · rcases rest with _ | ⟨d, rest'⟩
      · simp at h2
        omega
      · obtain ⟨r, hr, hr1, hr2⟩ := ih (k + c.contentLen) n (idx + 1) hrest (by omega)
          (by simp only [List.map_cons, List.sum_cons] at h2 ⊢; push_cast at h2 ⊢; omega)
        refine ⟨r, ?_, hr1, hr2⟩
        unfold getAtomGo
        rw [if_neg hin]
        exact hr

/-- C7 (amended): in any OpLog state satisfying the structural invariants P1
and P3 — every stored per-peer change vector is non-empty with counters
contiguous from 0, `dag.vv` carries exactly each stored peer's atom length,
and every other vv entry is non-positive — `lookup_change(id)` (for
`id.counter ≥ 0`) returns `Some` exactly when `dag.vv.includes_id(id)`, and
any returned change's span `[c.id.counter, c.id.counter + c.content_len)`
contains `id.counter`. -/
theorem c7_amended (s : OpLog)
    (hch : ∀ pr ∈ s.changes, contiguousFrom 0 pr.2.vec = true ∧ pr.2.vec ≠ [])
    (hvv : ∀ pr ∈ s.changes, s.dag.vv.getVV pr.1 = some (pr.2.atomLen : Int))
    (hvc : ∀ pr ∈ s.dag.vv, ¬ s.changes.lookup pr.1 = none ∨ pr.2 ≤ 0)
    (id : ID) (hc : 0 ≤ id.counter) :
    ((lookupChange s id).isSome = s.dag.vv.includesId id) ∧
    (∀ c, lookupChange s id = some c →
      c.id.counter ≤ id.counter ∧ id.counter < c.ctrEnd) := by
  rcases hlk : s.changes.lookup id.peer with _ | rv
  · have hlc : lookupChange s id = none := by
      unfold lookupChange
      rw [hlk]
      rfl
    have hinc : s.dag.vv.includesId id = false := by
      rcases hgv : s.dag.vv.getVV id.peer with _ | v
      · exact includesId_of_getVV_none hgv
      · rw [includesId_of_getVV_some hgv]
        rcases hvc (id.peer, v) (lookup_mem hgv) with hne | hle
        · exact absurd hlk hne
        · have hle' : v ≤ 0 := hle
          simp only [decide_eq_false_iff_not]
          omega
    rw [hlc, hinc]
    exact ⟨rfl, by intro c hcc; simp at hcc⟩
  · have hmem : (id.peer, rv) ∈ s.changes := lookup_mem hlk
    have hcont : contiguousFrom 0 rv.vec = true := (hch _ hmem).1
    have hne : rv.vec ≠ [] := (hch _ hmem).2
    have hgv : s.dag.vv.getVV id.peer = some (rv.atomLen : Int) := hvv _ hmem
    rcases hgl : rv.vec.getLast? with _ | lastC
    · rw [List.getLast?_eq_none_iff] at hgl
      exact absurd hgl hne
    have hend : lastC.ctrEnd = ((rv.atomLen : Int)) := by
      have := contiguous_getLast rv.vec 0 lastC hcont hgl
      rw [this]
      simp [RleVecC.atomLen]
    have hlast : lastC.idLast.counter = (rv.atomLen : Int) - 1 := by
      show lastC.id.counter + (lastC.contentLen : Int) - 1 = (rv.atomLen : Int) - 1
      have : lastC.id.counter + (lastC.contentLen : Int) = (rv.atomLen : Int) := hend
      omega
    have hinc : s.dag.vv.includesId id = decide (id.counter < (rv.atomLen : Int)) :=
      includesId_of_getVV_some hgv
    by_cases hrange : id.counter < (rv.atomLen : Int)
    · obtain ⟨r, hr, hr1, hr2⟩ := contiguous_getAtomGo rv.vec 0 id.counter 0 hcont hc
        (by simpa [RleVecC.atomLen] using hrange)
      have hlc : lookupChange s id = some r.element := by
        unfold lookupChange
        rw [hlk]
        simp only [Option.some_bind]
        rw [hgl]
        dsimp only
        rw [if_pos (show id.counter ≤ lastC.idLast.counter by rw [hlast]; omega)]
        unfold RleVecC.getByAtomIndex
        rw [hr]
        rfl
      rw [hlc, hinc]
      constructor
      · rw [decide_eq_true hrange]
        rfl
      · intro c hcc
        rw [Option.some_inj] at hcc
        subst hcc
        exact ⟨hr1, hr2⟩
    · have hlc : lookupChange s id = none := by
        unfold lookupChange
        rw [hlk]
        simp only [Option.some_bind]
        rw [hgl]
        dsimp only
        rw [if_neg (show ¬ id.counter ≤ lastC.idLast.counter by rw [hlast]; omega)]
      rw [hlc, hinc]
      constructor
      · rw [decide_eq_false hrange]
        rfl
      · intro c hcc
        simp at hcc


/-- C7 witness setup: a single local change `(1,0)` of length 3. -/
def c7wchange : Change := ⟨[⟨0, 3⟩], ⟨1, 0⟩, [], 0, 0⟩

/-- C7 witness state. -/
def c7w : OpLog := ((importLocalChange OpLog.new c7wchange).okState).getD OpLog.new

/-- C7 witness: the amended theorem at the concrete well-formed state `c7w`
and the id `(1,1)`. -/
theorem c7_amended_witness :
    ((lookupChange c7w ⟨1, 1⟩).isSome = c7w.dag.vv.includesId ⟨1, 1⟩) ∧
    (∀ c, lookupChange c7w ⟨1, 1⟩ = some c →
      c.id.counter ≤ 1 ∧ (1 : Int) < c.ctrEnd) :=
  c7_amended c7w (by decide) (by decide) (by decide) ⟨1, 1⟩ (by decide)

/-! ### Claim C5: sorting lemmas -/

/-- Insertion keeps the multiset of changes. -/
theorem insLamport_perm (c : Change) : ∀ l : List Change, List.Perm (insLamport c l) (c :: l) := by
  intro l
  induction l with
  | nil => exact List.Perm.refl _
  | cons x xs ih =>
    unfold insLamport
    split
    · exact List.Perm.refl _
    · exact (List.Perm.cons x ih).trans (List.Perm.swap c x xs)

/-- The stable sort is a permutation of its input. -/
theorem sortByLamport_perm : ∀ l : List Change, List.Perm (sortByLamport l) l := by
  intro l
  induction l with
  | nil => exact List.Perm.refl _
  | cons x xs ih =>
    unfold sortByLamport at ih ⊢
    simp only [List.foldr_cons]
    exact (insLamport_perm x _).trans (List.Perm.cons x ih)

/-- Insertion preserves sortedness by lamport. -/
theorem insLamport_sorted (c : Change) :
    ∀ l : List Change, l.Pairwise (fun a b => a.lamport ≤ b.lamport) →
      (insLamport c l).Pairwise (fun a b => a.lamport ≤ b.lamport) := by
  intro l
  induction l with
  | nil => intro _; simp [insLamport]
  | cons x xs ih =>
    intro h
    rcases List.pairwise_cons.mp h with ⟨hx, hxs⟩
    unfold insLamport
    split
    · rename_i hle
      refine List.pairwise_cons.mpr ⟨?_, h⟩
      intro b hb
      rcases List.mem_cons.mp hb with rfl | hb
      · exact hle
      · exact le_trans hle (hx b hb)
    · rename_i hgt
      refine List.pairwise_cons.mpr ⟨?_, ih hxs⟩
      intro b hb
      have hb' := (insLamport_perm c xs).mem_iff.mp hb
      rcases List.mem_cons.mp hb' with rfl | hb'
      · omega
      · exact hx b hb'

/-- The applied order is sorted by lamport ascending. -/
theorem sortByLamport_sorted :
    ∀ l : List Change, (sortByLamport l).Pairwise (fun a b => a.lamport ≤ b.lamport) := by
  intro l
  induction l with
  | nil => simp [sortByLamport]
  | cons x xs ih =>
    unfold sortByLamport at ih ⊢
    simp only [List.foldr_cons]
    exact insLamport_sorted x _ ih

/-- Spec-side insertion keeps the multiset of changes. -/
theorem insLPC_perm (c : Change) : ∀ l : List Change, List.Perm (insLPC c l) (c :: l) := by
  intro l
  induction l with
  | nil => exact List.Perm.refl _
  | cons x xs ih =>
    unfold insLPC
    split
    · exact List.Perm.refl _
    · exact (List.Perm.cons x ih).trans (List.Perm.swap c x xs)

/-- The spec-side sort is a permutation of its input. -/
theorem specSortLPC_perm : ∀ l : List Change, List.Perm (specSortLPC l) l := by
  intro l
  induction l with
  | nil => exact List.Perm.refl _
  | cons x xs ih =>
    unfold specSortLPC at ih ⊢
    simp only [List.foldr_cons]
    exact (insLPC_perm x _).trans (List.Perm.cons x ih)

/-- The lexicographic test is reflected in lamports. -/
theorem lpcLe_lamport {a b : Change} (h : lpcLe a b = true) : a.lamport ≤ b.lamport := by
  unfold lpcLe at h
  simp only [Bool.or_eq_true, Bool.and_eq_true, decide_eq_true_eq] at h
  rcases h with h | ⟨h, _⟩
  · omega
  · omega

/-- A failed lexicographic test bounds the lamports the other way. -/
theorem not_lpcLe_lamport {a b : Change} (h : lpcLe a b = false) : b.lamport ≤ a.lamport := by
  unfold lpcLe at h
  simp only [Bool.or_eq_false_iff, Bool.and_eq_false_iff, decide_eq_false_iff_not] at h
  omega

/-- Spec-side insertion preserves lamport sortedness. -/
theorem insLPC_sorted (c : Change) :
    ∀ l : List Change, l.Pairwise (fun a b => a.lamport ≤ b.lamport) →
      (insLPC c l).Pairwise (fun a b => a.lamport ≤ b.lamport) := by
  intro l
  induction l with
  | nil => intro _; simp [insLPC]
  | cons x xs ih =>
    intro h
    rcases List.pairwise_cons.mp h with ⟨hx, hxs⟩
    unfold insLPC
    split
    · rename_i hle
      refine List.pairwise_cons.mpr ⟨?_, h⟩
      intro b hb
      have hcx := lpcLe_lamport hle
      rcases List.mem_cons.mp hb with rfl | hb
      · exact hcx
      · exact le_trans hcx (hx b hb)
    · rename_i hgt
      refine List.pairwise_cons.mpr ⟨?_, ih hxs⟩
      intro b hb
      have hxc := not_lpcLe_lamport (Bool.eq_false_iff.mpr hgt)
      have hb' := (insLPC_perm c xs).mem_iff.mp hb
      rcases List.mem_cons.mp hb' with rfl | hb'
      · exact hxc
      · exact hx b hb'

/-- The spec-side (lamport, peer, counter) sort is also lamport sorted. -/
theorem specSortLPC_sorted :
    ∀ l : List Change, (specSortLPC l).Pairwise (fun a b => a.lamport ≤ b.lamport) := by
  intro l
  induction l with
  | nil => simp [specSortLPC]
  | cons x xs ih =>
    unfold specSortLPC at ih ⊢
    simp only [List.foldr_cons]
    exact insLPC_sorted x _ ih

/-- Two lamport-sorted permutations of each other with pairwise-distinct
lamports are equal (sorted uniqueness under an injective key). -/
theorem sorted_perm_nodup_eq :
    ∀ l1 l2 : List Change, l1.Pairwise (fun a b => a.lamport ≤ b.lamport) →
      l2.Pairwise (fun a b => a.lamport ≤ b.lamport) →
      (l1.map Change.lamport).Nodup → List.Perm l1 l2 → l1 = l2 := by
  intro l1
  induction l1 with
  | nil =>
    intro l2 _ _ _ hp
    exact (List.Perm.nil_eq hp).symm ▸ rfl
  | cons a t1 ih =>
    intro l2 h1 h2 hnd hp
    rcases l2 with _ | ⟨b, t2⟩
    · exact absurd hp.symm (by simp [List.Perm.nil_eq])
    rcases List.pairwise_cons.mp h1 with ⟨ha, ht1⟩
    rcases List.pairwise_cons.mp h2 with ⟨hb, ht2⟩
    simp only [List.map_cons, List.nodup_cons] at hnd
    obtain ⟨hna, hndt⟩ := hnd
    have hab : a = b := by
      have hbmem : b ∈ a :: t1 := hp.mem_iff.mpr (List.mem_cons_self b t2)
      rcases List.mem_cons.mp hbmem with rfl | hbt1
      · rfl
      · have hamem : a ∈ b :: t2 := hp.mem_iff.mp (List.mem_cons_self a t1)
        rcases List.mem_cons.mp hamem with rfl | hat2
        · exact absurd (List.mem_map_of_mem Change.lamport hbt1) (by simpa using hna)
        · have h1' : a.lamport ≤ b.lamport := ha b hbt1
          have h2' : b.lamport ≤ a.lamport := hb a hat2
          have : a.lamport = b.lamport := le_antisymm h1' h2'
          exact absurd (this ▸ List.mem_map_of_mem Change.lamport hbt1) hna
    subst hab
    have hpt := hp.cons_inv
    rw [ih t2 ht1 ht2 hndt hpt]

/-! ### Claim C5: association-list lemmas (maps compared by lookup) -/

/-- Lookup of the head key. -/
theorem lookup_cons_self {α : Type} (k : Nat) (v : α) (t : List (Nat × α)) :
    ((k, v) :: t).lookup k = some v := by
  simp [List.lookup]

/-- Lookup skips a head with a different key. -/
theorem lookup_cons_ne {α : Type} {p k : Nat} (v : α) (t : List (Nat × α)) (h : p ≠ k) :
    ((k, v) :: t).lookup p = t.lookup p := by
  rw [List.lookup, show (p == k) = false by simpa using h]

/-- A key outside the key list is not found. -/
theorem lookup_eq_none_of_not_mem_keys {α : Type} :
    ∀ {l : List (Nat × α)} {k : Nat}, k ∉ l.map Prod.fst → l.lookup k = none := by
  intro l
  induction l with
  | nil => intro k _; rfl
  | cons e rest ih =>
    intro k hk
    rcases e with ⟨q, w⟩
    simp only [List.map_cons, List.mem_cons] at hk
    push_neg at hk
    rw [lookup_cons_ne w rest hk.1]
    exact ih hk.2

/-- Removal of the first occurrence of an entry (own recursion, used instead
of `List.erase` to keep one `BEq` route). -/
def eraseEntry {α : Type} [DecidableEq α] : List (Nat × α) → (Nat × α) → List (Nat × α)
  | [], _ => []
  | e :: rest, x => if e = x then rest else e :: eraseEntry rest x

/-- Removing a member and re-consing it is a permutation. -/
theorem perm_cons_eraseEntry {α : Type} [DecidableEq α] :
    ∀ {l : List (Nat × α)} {x : Nat × α}, x ∈ l → List.Perm l (x :: eraseEntry l x) := by
  intro l
  induction l with
  | nil => intro x hx; simp at hx
  | cons e rest ih =>
    intro x hx
    unfold eraseEntry
    by_cases hex : e = x
    · subst hex
      rw [if_pos rfl]
    · rw [if_neg hex]
      have hxr : x ∈ rest := by
        rcases List.mem_cons.mp hx with h | h
        · exact absurd h.symm hex
        · exact h
      exact ((ih hxr).cons e).trans (List.Perm.swap x e _)

/-- The removal is a sublist of the original. -/
theorem eraseEntry_sublist {α : Type} [DecidableEq α] :
    ∀ (l : List (Nat × α)) (x : Nat × α), List.Sublist (eraseEntry l x) l := by
  intro l
  induction l with
  | nil => intro x; simp [eraseEntry]
  | cons e rest ih =>
    intro x
    unfold eraseEntry
    by_cases hex : e = x
    · rw [if_pos hex]
      exact List.sublist_cons_self e rest
    · rw [if_neg hex]
      exact (ih x).cons₂ e

/-- Erasing an entry with a different key does not change a lookup. -/
theorem lookup_erase_ne {α : Type} [DecidableEq α] :
    ∀ (l : List (Nat × α)) (x : Nat × α) {p : Nat}, p ≠ x.1 →
      (eraseEntry l x).lookup p = l.lookup p := by
  intro l
  induction l with
  | nil => intro x p _; rfl
  | cons e rest ih =>
    intro x p hp
    unfold eraseEntry
    by_cases hex : e = x
    · rw [if_pos hex]
      rcases e with ⟨q, w⟩
      have hq : p ≠ q := by
        rw [← hex] at hp
        exact hp
      exact (lookup_cons_ne w rest hq).symm
    · rw [if_neg hex]
      rcases e with ⟨q, w⟩
      by_cases hq : p = q
      · subst hq
        rw [lookup_cons_self, lookup_cons_self]
      · rw [lookup_cons_ne w _ hq, lookup_cons_ne w rest hq]
        exact ih x hp

/-- Erasing the unique entry of a key makes that key unfindable. -/
theorem lookup_erase_self {α : Type} [DecidableEq α] :
    ∀ {l : List (Nat × α)} {k : Nat} {v : α}, (k, v) ∈ l → (l.map Prod.fst).Nodup →
      (eraseEntry l (k, v)).lookup k = none := by
  intro l
  induction l with
  | nil => intro k v hm _; simp at hm
  | cons e rest ih =>
    intro k v hm hnd
    unfold eraseEntry
    rcases e with ⟨q, w⟩
    simp only [List.map_cons, List.nodup_cons] at hnd
    obtain ⟨hq, hndr⟩ := hnd
    by_cases hex : (q, w) = (k, v)
    · rw [hex, if_pos rfl]
      have : k ∉ rest.map Prod.fst := by
        have : q = k := (Prod.mk.injEq _ _ _ _ ▸ hex).1
        rw [← this]
        exact hq
      exact lookup_eq_none_of_not_mem_keys this
    · rw [if_neg hex]
      have hmr : (k, v) ∈ rest := by
        rcases List.mem_cons.mp hm with h | h
        · exact absurd h.symm hex
        · exact h
      have hqk : k ≠ q := by
        intro h
        subst h
        exact hq (List.mem_map_of_mem Prod.fst hmr)
      rw [lookup_cons_ne w _ hqk]
      exact ih hmr hndr

/-- Two association lists with duplicate-free keys and identical lookups are
permutations of each other. -/
theorem lookupEq_nodup_perm {α : Type} [DecidableEq α] :
    ∀ (l1 l2 : List (Nat × α)), (l1.map Prod.fst).Nodup → (l2.map Prod.fst).Nodup →
      (∀ p, l1.lookup p = l2.lookup p) → List.Perm l1 l2 := by
  intro l1
  induction l1 with
  | nil =>
    intro l2 _ hnd2 hlook
    rcases l2 with _ | ⟨⟨k, v⟩, t2⟩
    · exact List.Perm.refl _
    · have := hlook k
      rw [lookup_cons_self] at this
      simp [List.lookup] at this
  | cons e t1 ih =>
    intro l2 hnd1 hnd2 hlook
    rcases e with ⟨k, v⟩
    simp only [List.map_cons, List.nodup_cons] at hnd1
    obtain ⟨hk1, hnd1'⟩ := hnd1
    have hkv2 : (k, v) ∈ l2 := by
      have := hlook k
      rw [lookup_cons_self] at this
      exact lookup_mem this.symm
    have hperm2 : List.Perm l2 ((k, v) :: eraseEntry l2 (k, v)) := perm_cons_eraseEntry hkv2
    have hndE : ((eraseEntry l2 (k, v)).map Prod.fst).Nodup :=
      ((eraseEntry_sublist l2 (k, v)).map Prod.fst).nodup hnd2
    have hlook' : ∀ p, t1.lookup p = (eraseEntry l2 (k, v)).lookup p := by
      intro p
      by_cases hp : p = k
      · subst hp
        rw [lookup_eq_none_of_not_mem_keys hk1, lookup_erase_self hkv2 hnd2]
      · have := hlook p
        rw [lookup_cons_ne v t1 hp] at this
        rw [this, lookup_erase_ne l2 (k, v) hp]
    exact ((ih (eraseEntry l2 (k, v)) hnd1' hndE hlook').cons (k, v)).trans hperm2.symm

/-- Folding accumulated appends is a flatMap. -/
theorem foldl_append_flatMap {α β : Type} (f : α → List β) :
    ∀ (l : List α) (acc : List β),
      l.foldl (fun a x => a ++ f x) acc = acc ++ l.flatMap f := by
  intro l
  induction l with
  | nil => intro acc; simp
  | cons x xs ih =>
    intro acc
    simp only [List.foldl_cons, List.flatMap_cons, ih, List.append_assoc]

/-- Permuted inputs give permuted flatMaps. -/
theorem perm_flatMap {α β : Type} (f : α → List β) {l1 l2 : List α}
    (hp : List.Perm l1 l2) : List.Perm (l1.flatMap f) (l2.flatMap f) := by
  simpa [List.flatMap] using (hp.map f).flatten

/-- Any over a permutation is unchanged. -/
theorem perm_any {α : Type} {l1 l2 : List α} (hp : List.Perm l1 l2) (f : α → Bool) :
    l1.any f = l2.any f := by
  rcases h : l2.any f with _ | _
  · rw [Bool.eq_false_iff]
    intro hc
    rw [List.any_eq_true] at hc
    obtain ⟨x, hx, hfx⟩ := hc
    rw [Bool.eq_false_iff] at h
    exact h (List.any_eq_true.mpr ⟨x, hp.mem_iff.mp hx, hfx⟩)
  · rw [List.any_eq_true] at h ⊢
    obtain ⟨x, hx, hfx⟩ := h
    exact ⟨x, hp.mem_iff.mpr hx, hfx⟩

/-! ### Claim C5: pre-pass characterization -/

/-- The remote pre-pass only touches `dag.vv` and the clocks. -/
theorem prePass_skeleton (batch : RemoteClientChanges) :
    ∀ s : OpLog, (batch.foldl remotePrePass s).dag.map = s.dag.map ∧
      (batch.foldl remotePrePass s).dag.frontiers = s.dag.frontiers ∧
      (batch.foldl remotePrePass s).changes = s.changes ∧
      (batch.foldl remotePrePass s).pendingChanges = s.pendingChanges := by
  induction batch with
  | nil => intro s; exact ⟨rfl, rfl, rfl, rfl⟩
  | cons pr rest ih =>
    intro s
    have h := ih (remotePrePass s pr)
    have hstep : (remotePrePass s pr).dag.map = s.dag.map ∧
        (remotePrePass s pr).dag.frontiers = s.dag.frontiers ∧
        (remotePrePass s pr).changes = s.changes ∧
        (remotePrePass s pr).pendingChanges = s.pendingChanges := by
      unfold remotePrePass
      cases pr.2.getLast? <;> exact ⟨rfl, rfl, rfl, rfl⟩
    simp only [List.foldl_cons]
    exact ⟨h.1.trans hstep.1, h.2.1.trans hstep.2.1, h.2.2.1.trans hstep.2.2.1,
      h.2.2.2.trans hstep.2.2.2⟩

/-- Unfolding equation of the extend on a cons cell. -/
theorem extend_cons (p : Nat) (c : Int) (rest : VersionVector) (id : ID) :
    VersionVector.extendToIncludeLastId ((p, c) :: rest) id =
      if p = id.peer then (p, max c (id.counter + 1)) :: rest
      else (p, c) :: VersionVector.extendToIncludeLastId rest id := rfl

/-- Pointwise effect of `extend_to_include_last_id` on lookups. -/
theorem getVV_extend (id : ID) (q : Nat) :
    ∀ vv : VersionVector, (vv.extendToIncludeLastId id).getVV q =
      if id.peer = q then
        some (match vv.getVV q with
          | some c => max c (id.counter + 1)
          | none => id.counter + 1)
      else vv.getVV q := by
  intro vv
  induction vv with
  | nil =>
    by_cases h : id.peer = q
    · subst h
      simp [VersionVector.extendToIncludeLastId, VersionVector.getVV, List.lookup]
    · have hq : (q == id.peer) = false := by simpa using fun hh => h hh.symm
      simp [VersionVector.extendToIncludeLastId, VersionVector.getVV, List.lookup, h, hq]
  | cons e rest ih =>
    rcases e with ⟨p, c⟩
    by_cases hp : p = id.peer
    · subst hp
      by_cases hq : id.peer = q
      · subst hq
        simp [VersionVector.extendToIncludeLastId, VersionVector.getVV, List.lookup]
      · have hqb : (q == id.peer) = false := by simpa using fun hh => hq hh.symm
        simp [VersionVector.extendToIncludeLastId, VersionVector.getVV, List.lookup, hq, hqb]
    · rw [extend_cons, if_neg hp]
      by_cases hq : q = p
      · subst hq
        have hnq : ¬ id.peer = q := fun hh => hp hh.symm
        rw [if_neg hnq]
        show List.lookup q ((q, c) :: VersionVector.extendToIncludeLastId rest id) =
          List.lookup q ((q, c) :: rest)
        rw [lookup_cons_self, lookup_cons_self]
      · show List.lookup q ((p, c) :: VersionVector.extendToIncludeLastId rest id) =
          if id.peer = q then
            some (match List.lookup q ((p, c) :: rest) with
              | some cc => max cc (id.counter + 1)
              | none => id.counter + 1)
          else List.lookup q ((p, c) :: rest)
        rw [lookup_cons_ne c _ hq]
        simp only [lookup_cons_ne c rest hq]
        exact ih

/-- One step of the per-peer pre-pass, viewed through the lookup of peer `q`. -/
def prePassVVStep (q : Nat) (o : Option Int) (pr : Nat × List RChange) : Option Int :=
  match pr.2.getLast? with
  | none => o
  | some lastC =>
    if lastC.idLast.peer = q then
      some (match o with
        | some c => max c (lastC.idLast.counter + 1)
        | none => lastC.idLast.counter + 1)
    else o

/-- The pre-pass `dag.vv`, observed through one peer's lookup, is a fold of
`prePassVVStep`. -/
theorem getVV_prePass (q : Nat) :
    ∀ (batch : RemoteClientChanges) (s : OpLog),
      (batch.foldl remotePrePass s).dag.vv.getVV q =
        batch.foldl (prePassVVStep q) (s.dag.vv.getVV q) := by
  intro batch
  induction batch with
  | nil => intro s; rfl
  | cons pr rest ih =>
    intro s
    simp only [List.foldl_cons]
    rw [ih (remotePrePass s pr)]
    congr 1
    unfold remotePrePass prePassVVStep
    rcases hx : pr.2.getLast? with _ | lastC
    · rfl
    · exact getVV_extend lastC.idLast q s.dag.vv

/-- The vv-step for a fixed peer is right-commutative (so batch iteration
order does not matter pointwise). -/
theorem prePassVVStep_comm (q : Nat) (o : Option Int) (x y : Nat × List RChange) :
    prePassVVStep q (prePassVVStep q o x) y = prePassVVStep q (prePassVVStep q o y) x := by
  unfold prePassVVStep
  rcases hx : x.2.getLast? with _ | cx <;> rcases hy : y.2.getLast? with _ | cy <;>
    try dsimp only
  by_cases hcx : cx.idLast.peer = q <;> by_cases hcy : cy.idLast.peer = q
  · rw [if_pos hcy, if_pos hcx, if_pos hcx, if_pos hcy]
    rcases o with _ | c <;> dsimp only
    · exact congrArg some (by omega)
    · exact congrArg some (by omega)
  · rw [if_neg hcy, if_pos hcx, if_pos hcx, if_neg hcy]
  · rw [if_pos hcy, if_neg hcx, if_neg hcx, if_pos hcy]
  · rw [if_neg hcy, if_neg hcx, if_neg hcx, if_neg hcy]

/-- One step of the pre-pass next_lamport update. -/
def prePassNLStep (acc : Nat) (pr : Nat × List RChange) : Nat :=
  match pr.2.getLast? with
  | none => acc
  | some lastC => max acc lastC.lamportEnd

/-- One step of the pre-pass latest_timestamp update. -/
def prePassTSStep (acc : Int) (pr : Nat × List RChange) : Int :=
  match pr.2.getLast? with
  | none => acc
  | some lastC => max acc lastC.timestamp

/-- The pre-pass clocks are folds of their steps. -/
theorem clocks_prePass :
    ∀ (batch : RemoteClientChanges) (s : OpLog),
      (batch.foldl remotePrePass s).nextLamport =
        batch.foldl prePassNLStep s.nextLamport ∧
      (batch.foldl remotePrePass s).latestTimestamp =
        batch.foldl prePassTSStep s.latestTimestamp := by
  intro batch
  induction batch with
  | nil => intro s; exact ⟨rfl, rfl⟩
  | cons pr rest ih =>
    intro s
    simp only [List.foldl_cons]
    have h := ih (remotePrePass s pr)
    constructor
    · refine h.1.trans ?_
      congr 1
      rcases hx : pr.2.getLast? with _ | lastC <;>
        simp [remotePrePass, prePassNLStep, hx]
    · refine h.2.trans ?_
      congr 1
      rcases hx : pr.2.getLast? with _ | lastC <;>
        simp [remotePrePass, prePassTSStep, hx]

/-- The clock steps are right-commutative. -/
theorem prePassNLStep_comm (acc : Nat) (x y : Nat × List RChange) :
    prePassNLStep (prePassNLStep acc x) y = prePassNLStep (prePassNLStep acc y) x := by
  unfold prePassNLStep
  rcases hx : x.2.getLast? with _ | cx <;> rcases hy : y.2.getLast? with _ | cy <;>
    try dsimp only
  all_goals omega

/-- The timestamp step is right-commutative. -/
theorem prePassTSStep_comm (acc : Int) (x y : Nat × List RChange) :
    prePassTSStep (prePassTSStep acc x) y = prePassTSStep (prePassTSStep acc y) x := by
  unfold prePassTSStep
  rcases hx : x.2.getLast? with _ | cx <;> rcases hy : y.2.getLast? with _ | cy <;>
    try dsimp only
  all_goals omega

/-- Keys after an extend: unchanged when the peer is known, appended when new. -/
theorem keys_extend (id : ID) :
    ∀ vv : VersionVector, (vv.extendToIncludeLastId id).map Prod.fst =
      if id.peer ∈ vv.map Prod.fst then vv.map Prod.fst
      else vv.map Prod.fst ++ [id.peer] := by
  intro vv
  induction vv with
  | nil => simp [VersionVector.extendToIncludeLastId]
  | cons e rest ih =>
    rcases e with ⟨p, c⟩
    unfold VersionVector.extendToIncludeLastId
    by_cases hp : p = id.peer
    · subst hp
      rw [if_pos rfl]
      simp
    · rw [if_neg hp]
      simp only [List.map_cons, List.mem_cons]
      rw [ih]
      by_cases hmem : id.peer ∈ rest.map Prod.fst
      · rw [if_pos hmem, if_pos (Or.inr hmem)]
      · rw [if_neg hmem, if_neg ?_]
        · simp
        · rintro (h | h)
          · exact hp h.symm
          · exact hmem h

/-- Extending preserves duplicate-free keys. -/
theorem nodup_keys_extend (id : ID) {vv : VersionVector}
    (h : (vv.map Prod.fst).Nodup) : ((vv.extendToIncludeLastId id).map Prod.fst).Nodup := by
  rw [keys_extend]
  by_cases hmem : id.peer ∈ vv.map Prod.fst
  · rw [if_pos hmem]
    exact h
  · rw [if_neg hmem]
    simp [List.nodup_append, h, hmem]

/-- The pre-pass preserves duplicate-free vv keys. -/
theorem nodup_keys_prePass :
    ∀ (batch : RemoteClientChanges) (s : OpLog),
      ((s.dag.vv).map Prod.fst).Nodup →
      (((batch.foldl remotePrePass s).dag.vv).map Prod.fst).Nodup := by
  intro batch
  induction batch with
  | nil => intro s h; exact h
  | cons pr rest ih =>
    intro s h
    simp only [List.foldl_cons]
    refine ih (remotePrePass s pr) ?_
    unfold remotePrePass
    rcases pr.2.getLast? with _ | lastC
    · exact h
    · exact nodup_keys_extend _ h

/-- Permuted version vectors give permuted frontiers. -/
theorem vvToFrontiers_perm (dm : DagMap) {vv1 vv2 : VersionVector}
    (hp : List.Perm vv1 vv2) :
    List.Perm (vvToFrontiers dm vv1) (vvToFrontiers dm vv2) := by
  unfold vvToFrontiers
  have hc : List.Perm
      (vv1.filterMap (fun pr => if 0 < pr.2 then some (ID.mk pr.1 (pr.2 - 1)) else none))
      (vv2.filterMap (fun pr => if 0 < pr.2 then some (ID.mk pr.1 (pr.2 - 1)) else none)) :=
    hp.filterMap _
  set cands1 := vv1.filterMap
    (fun pr => if 0 < pr.2 then some (ID.mk pr.1 (pr.2 - 1)) else none) with hc1
  set cands2 := vv2.filterMap
    (fun pr => if 0 < pr.2 then some (ID.mk pr.1 (pr.2 - 1)) else none) with hc2
  have hfun : ∀ d ∈ cands2,
      (! cands1.any (fun e => ! decide (e = d) && ancestorIncludes dm e d)) =
      (! cands2.any (fun e => ! decide (e = d) && ancestorIncludes dm e d)) := by
    intro d _
    rw [perm_any hc]
  exact (hc.filter _).trans (List.Perm.of_eq (List.filter_congr hfun))

/-! ### Claim C5: the working vector under permutation -/

/-- The working vector is a flatMap over the batch entries. -/
theorem workArr_flatMap (s : OpLog) (batch : RemoteClientChanges) :
    remoteWorkArr s batch =
      batch.flatMap (fun pr => truncatedInterned s.changes pr.1 pr.2) := by
  unfold remoteWorkArr
  rw [foldl_append_flatMap]
  rfl

/-- Element-wise sublists flatMap to a sublist. -/
theorem flatMap_sublist {α β : Type} {f1 f2 : α → List β} :
    ∀ l : List α, (∀ x ∈ l, List.Sublist (f1 x) (f2 x)) →
      List.Sublist (l.flatMap f1) (l.flatMap f2) := by
  intro l
  induction l with
  | nil => intro _; simp
  | cons x xs ih =>
    intro h
    simp only [List.flatMap_cons]
    exact (h x (List.mem_cons_self x xs)).append
      (ih (fun y hy => h y (List.mem_cons_of_mem x hy)))

/-- Interning preserves the lamport. -/
theorem internChange_lamport (c : RChange) : (internChange c).lamport = c.lamport := rfl

/-- The lamports of the working vector form a sublist of the batch's lamports. -/
theorem workArr_lamports_sublist (s : OpLog) (batch : RemoteClientChanges) :
    List.Sublist ((remoteWorkArr s batch).map Change.lamport)
      ((batch.flatMap Prod.snd).map RChange.lamport) := by
  rw [workArr_flatMap, List.map_flatMap, List.map_flatMap]
  refine flatMap_sublist batch ?_
  intro pr _
  unfold truncatedInterned
  rw [List.map_map]
  have : (Change.lamport ∘ internChange) = RChange.lamport := rfl
  rw [this]
  exact (List.filter_sublist pr.2).map RChange.lamport

/-- Observational equality of OpLogs: identical DAG node store, change store,
pending buffer and clocks; version vectors equal as maps; frontiers equal as
sets (the hash map behind `vv` and the frontier vector order carry no
meaning). -/
def obsEq (s1 s2 : OpLog) : Prop :=
  s1.dag.map = s2.dag.map ∧
  (∀ p : Nat, s1.dag.vv.getVV p = s2.dag.vv.getVV p) ∧
  List.Perm s1.dag.frontiers s2.dag.frontiers ∧
  s1.changes = s2.changes ∧
  s1.nextLamport = s2.nextLamport ∧
  s1.latestTimestamp = s2.latestTimestamp ∧
  s1.pendingChanges = s2.pendingChanges

/-- Observational equality is reflexive. -/
theorem obsEq_refl (s : OpLog) : obsEq s s :=
  ⟨rfl, fun _ => rfl, List.Perm.refl _, rfl, rfl, rfl, rfl⟩

/-- Observational equality of import outcomes. -/
def outcomeObsEq : Outcome → Outcome → Prop
  | .ok s1, .ok s2 => obsEq s1 s2
  | .err e1 s1, .err e2 s2 => e1 = e2 ∧ obsEq s1 s2
  | .fatal, .fatal => True
  | _, _ => False

/-- C5 (amended): the incoming changes are applied in ascending lamport order,
but lamport ties are kept in the batch's iteration order (stable sort), not
resolved by PeerID.  When all lamports in the batch are pairwise distinct, the
application order does agree with the (lamport, peer, counter) sort, any two
batches that are equal as peer-to-changes maps are applied in the same order,
and the resulting OpLogs are observationally equal. -/
theorem c5_amended (s : OpLog) (b1 b2 : RemoteClientChanges)
    (hnd1 : (b1.map Prod.fst).Nodup) (hnd2 : (b2.map Prod.fst).Nodup)
    (hvvnd : (s.dag.vv.map Prod.fst).Nodup)
    (hlook : ∀ p : Nat, b1.lookup p = b2.lookup p)
    (hdist : ((b1.flatMap Prod.snd).map RChange.lamport).Nodup) :
    (remoteSortedArr s b1).Pairwise (fun a b => a.lamport ≤ b.lamport) ∧
    remoteSortedArr s b1 = specSortLPC (remoteWorkArr s b1) ∧
    remoteSortedArr s b1 = remoteSortedArr s b2 ∧
    outcomeObsEq (importRemoteChanges s b1) (importRemoteChanges s b2) := by
  have hbp : List.Perm b1 b2 := lookupEq_nodup_perm b1 b2 hnd1 hnd2 hlook
  have hwp : List.Perm (remoteWorkArr s b1) (remoteWorkArr s b2) := by
    rw [workArr_flatMap, workArr_flatMap]
    exact perm_flatMap _ hbp
  have harrnd : ((remoteSortedArr s b1).map Change.lamport).Nodup := by
    have hw : ((remoteWorkArr s b1).map Change.lamport).Nodup :=
      (workArr_lamports_sublist s b1).nodup hdist
    exact (((sortByLamport_perm _).map Change.lamport).nodup_iff).mpr hw
  have hsort1 := sortByLamport_sorted (remoteWorkArr s b1)
  have hsort2 := sortByLamport_sorted (remoteWorkArr s b2)
  have harrperm : List.Perm (remoteSortedArr s b1) (remoteSortedArr s b2) :=
    ((sortByLamport_perm _).trans hwp).trans (sortByLamport_perm _).symm
  have heqarr : remoteSortedArr s b1 = remoteSortedArr s b2 :=
    sorted_perm_nodup_eq _ _ hsort1 hsort2 harrnd harrperm
  have hlpc : remoteSortedArr s b1 = specSortLPC (remoteWorkArr s b1) := by
    refine sorted_perm_nodup_eq _ _ hsort1 (specSortLPC_sorted _) harrnd ?_
    exact (sortByLamport_perm _).trans (specSortLPC_perm _).symm
  refine ⟨hsort1, hlpc, heqarr, ?_⟩
  have hpre : preflightFails s b1 = preflightFails s b2 := perm_any hbp _
  unfold importRemoteChanges
  by_cases hpf : preflightFails s b1 = true
  · rw [if_pos hpf, if_pos (hpre ▸ hpf)]
    exact ⟨rfl, obsEq_refl s⟩
  · rw [if_neg hpf, if_neg (fun hh => hpf (hpre.symm ▸ hh))]
    dsimp only
    have hskel1 := prePass_skeleton b1 s
    have hskel2 := prePass_skeleton b2 s
    rw [hskel1.1, hskel1.2.2.1, hskel2.1, hskel2.2.2.1, heqarr]
    have hvveq : ∀ q : Nat,
        ((b1.foldl remotePrePass s).dag.vv).getVV q =
        ((b2.foldl remotePrePass s).dag.vv).getVV q := by
      intro q
      rw [getVV_prePass q b1 s, getVV_prePass q b2 s]
      exact @List.Perm.foldl_eq _ _ (prePassVVStep q) _ _
        ⟨fun o x y => prePassVVStep_comm q o x y⟩ hbp _
    have hvvperm : List.Perm (b1.foldl remotePrePass s).dag.vv
        (b2.foldl remotePrePass s).dag.vv :=
      lookupEq_nodup_perm _ _ (nodup_keys_prePass b1 s hvvnd)
        (nodup_keys_prePass b2 s hvvnd) hvveq
    have hnl : (b1.foldl remotePrePass s).nextLamport =
        (b2.foldl remotePrePass s).nextLamport := by
      rw [(clocks_prePass b1 s).1, (clocks_prePass b2 s).1]
      exact @List.Perm.foldl_eq _ _ prePassNLStep _ _
        ⟨fun o x y => prePassNLStep_comm o x y⟩ hbp _
    have hts : (b1.foldl remotePrePass s).latestTimestamp =
        (b2.foldl remotePrePass s).latestTimestamp := by
      rw [(clocks_prePass b1 s).2, (clocks_prePass b2 s).2]
      exact @List.Perm.foldl_eq _ _ prePassTSStep _ _
        ⟨fun o x y => prePassTSStep_comm o x y⟩ hbp _
    rcases happ : applyAll s.dag.map s.changes (remoteSortedArr s b2) with _ | ⟨dm, ch⟩
    · exact trivial
    · refine ⟨rfl, hvveq, vvToFrontiers_perm dm hvvperm, rfl, hnl, hts, ?_⟩
      rw [hskel1.2.2.2, hskel2.2.2.2]

/-- C5 witness batch entries: two changes with distinct lamports 0 and 1. -/
def c5wA : RChange := ⟨[⟨0, [1]⟩], ⟨1, 0⟩, [], 0, 0⟩

/-- C5 witness entry of peer 2 at lamport 1. -/
def c5wB : RChange := ⟨[⟨0, [1]⟩], ⟨2, 0⟩, [], 1, 0⟩

/-- C5 witness batch, first iteration order. -/
def c5w1 : RemoteClientChanges := [(1, [c5wA]), (2, [c5wB])]

/-- C5 witness batch, second iteration order. -/
def c5w2 : RemoteClientChanges := [(2, [c5wB]), (1, [c5wA])]

/-- C5 witness: the amended theorem at two concrete map-equal batches with
distinct lamports. -/
theorem c5_amended_witness :
    remoteSortedArr OpLog.new c5w1 = remoteSortedArr OpLog.new c5w2 ∧
    remoteSortedArr OpLog.new c5w1 = specSortLPC (remoteWorkArr OpLog.new c5w1) ∧
    outcomeObsEq (importRemoteChanges OpLog.new c5w1)
      (importRemoteChanges OpLog.new c5w2) := by
  have hlook : ∀ p : Nat, c5w1.lookup p = c5w2.lookup p := by
    intro p
    by_cases h1 : p = 1
    · subst h1
      decide
    · by_cases h2 : p = 2
      · subst h2
        decide
      · rw [lookup_eq_none_of_not_mem_keys (by simp [c5w1, h1, h2]),
          lookup_eq_none_of_not_mem_keys (by simp [c5w2, h1, h2])]
  have h := c5_amended OpLog.new c5w1 c5w2 (by decide) (by decide) (by decide) hlook
    (by decide)
  exact ⟨h.2.2.1, h.2.1, h.2.2.2⟩

end Loro
